import Mathlib

/-!
# Verification of the fraud-graph analytics engine

A shallow embedding of the fraud-detection graph pipeline:

* `src/src/models/graph_builder.py` (`FraudGraph`): builds an undirected
  relational graph `G` and a directed transfer network
  `transaction_network` from tabular input, and exposes subgraph,
  shared-device and path queries.
* `src/src/models/neo4j_graph_builder.py` (`Neo4jFraudGraph`): the
  external-store backend; we embed its in-memory NetworkX mirror of the
  transfer network.
* `src/src/models/fraud_detector.py` (`FraudDetector`): centrality
  scores, shared-resource detection, composite risk scoring and report
  generation.
* `src/src/features/graph_rag.py` (`GraphRAG`): the query layer,
  of which we embed the suspicious-pattern digest and its
  precision/recall computation.

DataFrames are embedded as lists of records, NetworkX graphs as
association lists of nodes (keyed by id, unique keys by construction)
and edges (keyed by ordered / unordered node pair).  Python floats are
embedded as exact rationals.
-/

/-! ## Tabular input (dataset columns as produced by the generator) -/

/-- A row of the `users` table: `user_id`, `is_fraudster`,
`account_age_days`, `verification_level`. -/
structure UserRow where
  user_id : String
  is_fraudster : Bool
  account_age_days : Int
  verification_level : String
  deriving DecidableEq, Repr

/-- A row of the `devices` table: `device_id`, `device_type`. -/
structure DeviceRow where
  device_id : String
  device_type : String
  deriving DecidableEq, Repr

/-- A row of the `user_devices` link table. -/
structure LinkRow where
  user_id : String
  device_id : String
  deriving DecidableEq, Repr

/-- A row of the `transactions` table.  Timestamps are opaque integers
(they are only stored, never computed with, in the embedded code). -/
structure TxnRow where
  transaction_id : String
  sender_id : String
  receiver_id : String
  amount : ℚ
  timestamp : Int
  is_fraudulent : Bool
  status : String
  deriving DecidableEq, Repr

/-- The dataset dictionary passed to `build_from_dataset`. -/
structure Dataset where
  users : List UserRow
  devices : List DeviceRow
  user_devices : List LinkRow
  transactions : List TxnRow
  deriving DecidableEq, Repr

/-- The `user_id` column of the users table. -/
def Dataset.userIds (ds : Dataset) : List String :=
  ds.users.map (·.user_id)

/-- The `device_id` column of the devices table. -/
def Dataset.deviceIds (ds : Dataset) : List String :=
  ds.devices.map (·.device_id)

/-! ## NetworkX graph embedding

Attribute dictionaries of nodes/edges become structures of `Option`
fields (a `none` field is an absent dictionary key).  `add_node` merges
attributes into an existing node; `add_edge` inserts missing endpoints
and merges attributes into an existing edge. -/

/-- Node attribute dictionary of the relational graph `G`. -/
structure NodeAttr where
  node_type : Option String := none
  is_fraudster : Option Bool := none
  account_age_days : Option Int := none
  verification_level : Option String := none
  device_type : Option String := none
  deriving DecidableEq, Repr

/-- Edge attribute dictionary of the relational graph `G`. -/
structure GEdgeAttr where
  edge_type : Option String := none
  amount : Option ℚ := none
  timestamp : Option Int := none
  is_fraudulent : Option Bool := none
  deriving DecidableEq, Repr

/-- Node attribute dictionary of the directed transfer network. -/
structure DiNodeAttr where
  is_fraudster : Option Bool := none
  account_age_days : Option Int := none
  deriving DecidableEq, Repr

/-- Edge attribute dictionary of `FraudGraph.transaction_network`
(`total_amount` / `transaction_count` aggregation). -/
structure TxnEdgeAttr where
  total_amount : ℚ
  transaction_count : Nat
  deriving DecidableEq, Repr

/-- Edge attribute dictionary of the `Neo4jFraudGraph` in-memory
transfer-network mirror (`transaction_id` / `amount` /
`is_fraudulent`; no aggregation fields). -/
structure N4EdgeAttr where
  transaction_id : String
  amount : ℚ
  is_fraudulent : Bool
  deriving DecidableEq, Repr

/-- `nx.Graph`: undirected, node and edge association lists. -/
structure NXGraph where
  nodes : List (String × NodeAttr)
  edges : List (String × String × GEdgeAttr)
  deriving DecidableEq, Repr

/-- `nx.DiGraph` for the transfer network. -/
structure NXDiGraph where
  nodes : List (String × DiNodeAttr)
  edges : List (String × String × TxnEdgeAttr)
  deriving DecidableEq, Repr

/-- The Neo4j backend's in-memory directed mirror. -/
structure N4DiGraph where
  nodes : List (String × DiNodeAttr)
  edges : List (String × String × N4EdgeAttr)
  deriving DecidableEq, Repr

namespace NXGraph

/-- Node ids, in insertion order (`list(G.nodes)`). -/
def nodeIds (g : NXGraph) : List String := g.nodes.map Prod.fst

/-- `G.nodes[n]` as an optional attribute dictionary. -/
def nodeAttr? (g : NXGraph) (n : String) : Option NodeAttr :=
  (g.nodes.find? (fun p => p.1 = n)).map Prod.snd

/-- `G.nodes[n].get("node_type")`. -/
def nodeType? (g : NXGraph) (n : String) : Option String :=
  (g.nodeAttr? n).bind (·.node_type)

/-- Update the node entry for `n` in place (Python dict semantics),
appending a fresh entry when absent. -/
def upsertNode (n : String) (f : NodeAttr → NodeAttr) :
    List (String × NodeAttr) → List (String × NodeAttr)
  | [] => [(n, f {})]
  | p :: ps => if p.1 = n then (p.1, f p.2) :: ps else p :: upsertNode n f ps

/-- `nx.Graph.add_node(n, ...)`: merge `f` into the attributes of `n`,
inserting `n` (with defaults updated by `f`) when absent. -/
def addNode (g : NXGraph) (n : String) (f : NodeAttr → NodeAttr) : NXGraph :=
  { g with nodes := upsertNode n f g.nodes }

/-- Whether an undirected edge entry matches the unordered pair `{a, b}`. -/
def ukeyMatch (a b : String) (e : String × String × GEdgeAttr) : Bool :=
  (e.1 = a ∧ e.2.1 = b) ∨ (e.1 = b ∧ e.2.1 = a)

/-- `G.has_edge(a, b)` (undirected). -/
def hasEdge (g : NXGraph) (a b : String) : Bool :=
  g.edges.any (ukeyMatch a b)

/-- `G.get_edge_data(a, b)` (undirected). -/
def edgeAttr? (g : NXGraph) (a b : String) : Option GEdgeAttr :=
  (g.edges.find? (ukeyMatch a b)).map (·.2.2)

/-- Update the edge entry for the unordered pair `{a, b}` in place,
appending a fresh `(a, b)` entry when absent. -/
def upsertUEdge (a b : String) (f : GEdgeAttr → GEdgeAttr) :
    List (String × String × GEdgeAttr) → List (String × String × GEdgeAttr)
  | [] => [(a, b, f {})]
  | e :: es => if ukeyMatch a b e then (e.1, e.2.1, f e.2.2) :: es else e :: upsertUEdge a b f es

/-- `nx.Graph.add_edge(a, b, ...)`: insert missing endpoints, then merge
`f` into the edge's attributes (inserting the edge when absent). -/
def addEdge (g : NXGraph) (a b : String) (f : GEdgeAttr → GEdgeAttr) : NXGraph :=
  let g := (g.addNode a id).addNode b id
  { g with edges := upsertUEdge a b f g.edges }

/-- `list(G.neighbors(n))` (each incident edge contributes its other
endpoint; a self-loop contributes `n` once). -/
def nbrs (g : NXGraph) (n : String) : List String :=
  g.edges.filterMap (fun e =>
    if e.1 = n then some e.2.1 else if e.2.1 = n then some e.1 else none)

end NXGraph

namespace NXDiGraph

/-- Node ids, in insertion order. -/
def nodeIds (g : NXDiGraph) : List String := g.nodes.map Prod.fst

/-- `transaction_network.nodes[n]` as an optional attribute dictionary. -/
def nodeAttr? (g : NXDiGraph) (n : String) : Option DiNodeAttr :=
  (g.nodes.find? (fun p => p.1 = n)).map Prod.snd

/-- Update the node entry for `n` in place, appending when absent. -/
def upsertNode (n : String) (f : DiNodeAttr → DiNodeAttr) :
    List (String × DiNodeAttr) → List (String × DiNodeAttr)
  | [] => [(n, f {})]
  | p :: ps => if p.1 = n then (p.1, f p.2) :: ps else p :: upsertNode n f ps

/-- `nx.DiGraph.add_node(n, ...)`. -/
def addNode (g : NXDiGraph) (n : String) (f : DiNodeAttr → DiNodeAttr) : NXDiGraph :=
  { g with nodes := upsertNode n f g.nodes }

/-- `G.has_edge(a, b)` (directed). -/
def hasEdge (g : NXDiGraph) (a b : String) : Bool :=
  g.edges.any (fun e => e.1 = a ∧ e.2.1 = b)

/-- `G[a][b]` as an optional attribute dictionary. -/
def edgeAttr? (g : NXDiGraph) (a b : String) : Option TxnEdgeAttr :=
  (g.edges.find? (fun e => e.1 = a ∧ e.2.1 = b)).map (·.2.2)

/-- Update the edge entry for the ordered pair `(a, b)` in place,
appending when absent; the update sees the previous attributes. -/
def upsertDEdge (a b : String) (f : Option TxnEdgeAttr → TxnEdgeAttr) :
    List (String × String × TxnEdgeAttr) → List (String × String × TxnEdgeAttr)
  | [] => [(a, b, f none)]
  | e :: es => if e.1 = a ∧ e.2.1 = b then (e.1, e.2.1, f (some e.2.2)) :: es
               else e :: upsertDEdge a b f es

/-- `nx.DiGraph.add_edge(a, b, ...)`: insert missing endpoints, then
merge `f` into the edge's attributes (inserting the edge when absent). -/
def addEdge (g : NXDiGraph) (a b : String) (f : Option TxnEdgeAttr → TxnEdgeAttr) : NXDiGraph :=
  let g := (g.addNode a id).addNode b id
  { g with edges := upsertDEdge a b f g.edges }

/-- `list(G.successors(n))` / out-neighbours. -/
def outNbrs (g : NXDiGraph) (n : String) : List String :=
  (g.edges.filter (fun e => e.1 = n)).map (·.2.1)

/-- In-neighbours. -/
def inNbrs (g : NXDiGraph) (n : String) : List String :=
  (g.edges.filter (fun e => e.2.1 = n)).map (·.1)

/-- `G.out_degree(n)`. -/
def outDeg (g : NXDiGraph) (n : String) : Nat := (g.outNbrs n).length

/-- `G.in_degree(n)`. -/
def inDeg (g : NXDiGraph) (n : String) : Nat := (g.inNbrs n).length

end NXDiGraph

/-! ## `FraudGraph.build_from_dataset` -/

/-- `FraudGraph`: the two graph views held by the in-process builder. -/
structure FraudGraphS where
  G : NXGraph
  transaction_network : NXDiGraph
  deriving DecidableEq, Repr

/-- Add one user row to `G` (graph_builder.py lines 25–32). -/
def addUserNodeG (g : NXGraph) (u : UserRow) : NXGraph :=
  g.addNode u.user_id (fun a =>
    { a with node_type := some "user", is_fraudster := some u.is_fraudster,
             account_age_days := some u.account_age_days,
             verification_level := some u.verification_level })

/-- Add one device row to `G` (lines 35–40). -/
def addDeviceNodeG (g : NXGraph) (d : DeviceRow) : NXGraph :=
  g.addNode d.device_id (fun a =>
    { a with node_type := some "device", device_type := some d.device_type })

/-- Add one user-device link edge to `G` (lines 43–48). -/
def addLinkEdgeG (g : NXGraph) (l : LinkRow) : NXGraph :=
  g.addEdge l.user_id l.device_id (fun a => { a with edge_type := some "uses_device" })

/-- Add one user row to the transfer network (lines 51–56). -/
def addUserNodeT (g : NXDiGraph) (u : UserRow) : NXDiGraph :=
  g.addNode u.user_id (fun a =>
    { a with is_fraudster := some u.is_fraudster,
             account_age_days := some u.account_age_days })

/-- Process one transaction row against `G` (lines 59–69): completed
transactions add/overwrite a `transaction` edge. -/
def addTxnEdgeG (g : NXGraph) (t : TxnRow) : NXGraph :=
  if t.status = "completed" then
    g.addEdge t.sender_id t.receiver_id (fun a =>
      { a with edge_type := some "transaction", amount := some t.amount,
               timestamp := some t.timestamp, is_fraudulent := some t.is_fraudulent })
  else g

/-- The transfer-network edge update of one completed transaction:
accumulate onto an existing edge, else start a fresh aggregate. -/
def txnStep (t : TxnRow) : Option TxnEdgeAttr → TxnEdgeAttr
  | some a => { a with total_amount := a.total_amount + t.amount,
                       transaction_count := a.transaction_count + 1 }
  | none => ⟨t.amount, 1⟩

/-- Process one transaction row against the transfer network (lines
71–81): completed transactions accumulate `total_amount` and
`transaction_count` on the directed edge. -/
def addTxnEdgeT (g : NXDiGraph) (t : TxnRow) : NXDiGraph :=
  if t.status = "completed" then
    g.addEdge t.sender_id t.receiver_id (txnStep t)
  else g

/-- The relational graph built by `FraudGraph.build_from_dataset`. -/
def buildG (ds : Dataset) : NXGraph :=
  ds.transactions.foldl addTxnEdgeG
    (ds.user_devices.foldl addLinkEdgeG
      (ds.devices.foldl addDeviceNodeG
        (ds.users.foldl addUserNodeG (NXGraph.mk [] []))))

/-- The directed transfer network built by
`FraudGraph.build_from_dataset`. -/
def buildT (ds : Dataset) : NXDiGraph :=
  ds.transactions.foldl addTxnEdgeT
    (ds.users.foldl addUserNodeT (NXDiGraph.mk [] []))

/-- `FraudGraph.build_from_dataset` (the interleaved Python loops touch
`G` and `transaction_network` independently, so the two views are the
independent folds above). -/
def buildFromDataset (ds : Dataset) : FraudGraphS :=
  ⟨buildG ds, buildT ds⟩

/-! ## `Neo4jFraudGraph.build_from_dataset` — in-memory transfer mirror

neo4j_graph_builder.py lines 123–171: the NetworkX mirror kept next to
the external store.  We embed the directed `transaction_network` mirror
(lines 133–136 and 156–171); `add_edge` with explicit keyword arguments
replaces the attribute values on an existing edge. -/

namespace N4DiGraph

/-- Node ids. -/
def nodeIds (g : N4DiGraph) : List String := g.nodes.map Prod.fst

/-- Update the node entry for `n` in place, appending when absent. -/
def upsertNode (n : String) (f : DiNodeAttr → DiNodeAttr) :
    List (String × DiNodeAttr) → List (String × DiNodeAttr)
  | [] => [(n, f {})]
  | p :: ps => if p.1 = n then (p.1, f p.2) :: ps else p :: upsertNode n f ps

/-- `add_node` merging attributes, inserting when absent. -/
def addNode (g : N4DiGraph) (n : String) (f : DiNodeAttr → DiNodeAttr) : N4DiGraph :=
  { g with nodes := upsertNode n f g.nodes }

/-- `G[a][b]` as an optional attribute dictionary. -/
def edgeAttr? (g : N4DiGraph) (a b : String) : Option N4EdgeAttr :=
  (g.edges.find? (fun e => e.1 = a ∧ e.2.1 = b)).map (·.2.2)

/-- Overwrite the edge entry for `(a, b)` in place, appending when
absent. -/
def upsertN4Edge (a b : String) (v : N4EdgeAttr) :
    List (String × String × N4EdgeAttr) → List (String × String × N4EdgeAttr)
  | [] => [(a, b, v)]
  | e :: es => if e.1 = a ∧ e.2.1 = b then (e.1, e.2.1, v) :: es
               else e :: upsertN4Edge a b v es

/-- `add_edge(a, b, transaction_id=…, amount=…, is_fraudulent=…)`:
all three attributes are supplied, so an existing edge's attribute
dictionary is overwritten wholesale. -/
def setEdge (g : N4DiGraph) (a b : String) (v : N4EdgeAttr) : N4DiGraph :=
  { g with edges := upsertN4Edge a b v g.edges }

end N4DiGraph

/-- One user row into the Neo4j mirror (lines 133–136). -/
def n4AddUserNode (g : N4DiGraph) (u : UserRow) : N4DiGraph :=
  g.addNode u.user_id (fun a => { a with is_fraudster := some u.is_fraudster })

/-- One transaction row into the Neo4j mirror (lines 156–171): for a
completed transaction, ensure the endpoints exist (defaulting
`is_fraudster=False` for missing ones) and set the edge attributes. -/
def n4AddTxn (g : N4DiGraph) (t : TxnRow) : N4DiGraph :=
  if t.status = "completed" then
    let g := if t.sender_id ∈ g.nodeIds then g
             else g.addNode t.sender_id (fun a => { a with is_fraudster := some false })
    let g := if t.receiver_id ∈ g.nodeIds then g
             else g.addNode t.receiver_id (fun a => { a with is_fraudster := some false })
    g.setEdge t.sender_id t.receiver_id ⟨t.transaction_id, t.amount, t.is_fraudulent⟩
  else g

/-- The `Neo4jFraudGraph.transaction_network` in-memory mirror after
`build_from_dataset`. -/
def n4BuildT (ds : Dataset) : N4DiGraph :=
  ds.transactions.foldl n4AddTxn
    (ds.users.foldl n4AddUserNode (N4DiGraph.mk [] []))

/-! ## `FraudGraph` queries -/

/-- One round of the breadth expansion in `get_user_subgraph`
(graph_builder.py lines 89–93): the working node set grows by the
neighbours of all its members. -/
def expandOnce (g : NXGraph) (s : List String) : List String :=
  s ++ s.flatMap g.nbrs

/-- The node set after `depth` expansion rounds starting from `{u}`
(as a list whose membership is the Python set). -/
def reachSet (g : NXGraph) (u : String) : Nat → List String
  | 0 => [u]
  | d + 1 => expandOnce g (reachSet g u d)

/-- `FraudGraph.get_user_subgraph` (lines 83–95): an absent user yields
an empty graph; otherwise the induced subgraph on the nodes reachable
within `depth` expansion rounds. -/
def getUserSubgraph (g : NXGraph) (u : String) (depth : Nat) : NXGraph :=
  if u ∈ g.nodeIds then
    let s := reachSet g u depth
    ⟨g.nodes.filter (fun p => p.1 ∈ s),
     g.edges.filter (fun e => e.1 ∈ s ∧ e.2.1 ∈ s)⟩
  else ⟨[], []⟩

/-- `FraudGraph.get_shared_devices` (lines 97–105): devices whose
user-typed neighbour list has more than one entry, with that list. -/
def getSharedDevices (g : NXGraph) : List (String × List String) :=
  g.nodes.filterMap (fun p =>
    if p.2.node_type = some "device" then
      let users := (g.nbrs p.1).filter (fun m => g.nodeType? m = some "user")
      if 1 < users.length then some (p.1, users) else none
    else none)

/-! ### `nx.all_simple_paths` and `FraudGraph.get_transaction_paths`

`all_simple_paths(G, source, target, cutoff)` raises `NodeNotFound` for
an absent source; an absent *string* target is treated as the set of its
single-character node names; a source that is itself a target yields the
trivial path; otherwise a depth-first enumeration of simple paths of at
most `cutoff` edges ending in a target.  `get_transaction_paths`
(lines 107–118) wraps the call in `try/except` returning `[]`. -/

/-- Depth-first enumeration of the non-empty simple-path suffixes from
`cur` (given nodes already `visited`) whose last node lies in
`targets`, using at most `fuel` further edges. -/
def extendPaths (g : NXDiGraph) (targets : List String) :
    Nat → List String → String → List (List String)
  | 0, _, _ => []
  | fuel + 1, visited, cur =>
    ((g.outNbrs cur).filter (fun n => n ∉ visited)).flatMap (fun n =>
      (if n ∈ targets then [[n]] else []) ++
        (extendPaths g targets fuel (n :: visited) n).map (n :: ·))

/-- `nx.all_simple_paths(G, s, t, cutoff)`; `none` is `NodeNotFound`. -/
def allSimplePaths (g : NXDiGraph) (s t : String) (cutoff : Nat) :
    Option (List (List String)) :=
  if s ∈ g.nodeIds then
    let targets := if t ∈ g.nodeIds then [t] else t.toList.map Char.toString
    some ((if s ∈ targets then [[s]] else []) ++
      (if 0 < cutoff then (extendPaths g targets cutoff [s] s).map (s :: ·) else []))
  else none

/-- `FraudGraph.get_transaction_paths(source, target, max_depth)`. -/
def getTransactionPaths (g : NXDiGraph) (s t : String) (maxDepth : Nat) :
    List (List String) :=
  (allSimplePaths g s t maxDepth).getD []

/-! ## `nx.pagerank` (damping 0.85, `max_iter=100`, `tol=1e-06`)

The library's power iteration over the edge-unweighted transfer network
(its edges carry no `weight` attribute), in exact rational arithmetic:
`x ← α·(x·M + danglesum·p) + (1−α)·p` with uniform `p = 1/N`, stopping
as soon as the L1 change drops below `N·tol`.  Exhausted fuel returns
the last iterate (with `α = 0.85` the iteration is an L1 contraction,
so 100 iterations always reach the tolerance). -/

/-- One power-iteration step of `nx.pagerank`. -/
def prStep (g : NXDiGraph) (x : String → ℚ) : String → ℚ :=
  let ids := g.nodeIds
  let n : ℚ := (ids.length : ℚ)
  let danglesum : ℚ := ((ids.filter (fun m => g.outDeg m = 0)).map x).sum
  fun v =>
    (17 / 20) * (((g.inNbrs v).map (fun m => x m / (g.outDeg m : ℚ))).sum + danglesum / n)
      + (3 / 20) / n

/-- L1 distance of two iterates over the node set. -/
def prErr (g : NXDiGraph) (x y : String → ℚ) : ℚ :=
  (g.nodeIds.map (fun v => |x v - y v|)).sum

/-- The convergence loop of `nx.pagerank`. -/
def prIter (g : NXDiGraph) : Nat → (String → ℚ) → (String → ℚ)
  | 0, x => x
  | fuel + 1, x =>
    let y := prStep g x
    if prErr g x y < (g.nodeIds.length : ℚ) * (1 / 1000000) then y
    else prIter g fuel y

/-- `nx.pagerank(G)` as a score function on node ids. -/
def nxPagerank (g : NXDiGraph) : String → ℚ :=
  prIter g 100 (fun _ => 1 / (g.nodeIds.length : ℚ))

/-! ## `nx.betweenness_centrality` (directed, normalized)

The fraction of all-pairs shortest directed paths passing through a
node as a strict intermediary, rescaled by `1/((n−1)(n−2))` when
`n > 2` — the value Brandes' accumulation computes.  Shortest paths are
simple, so they are enumerated through `extendPaths` with enough fuel
for any simple path. -/

/-- All simple directed paths from `s` to `t` (for `s ≠ t`). -/
def stSimplePaths (g : NXDiGraph) (s t : String) : List (List String) :=
  if s = t then []
  else (extendPaths g [t] g.nodeIds.length [s] s).map (s :: ·)

/-- Length (in nodes) of the shortest simple `s→t` path, if any. -/
def spShortestLen? (g : NXDiGraph) (s t : String) : Option Nat :=
  ((stSimplePaths g s t).map (·.length)).min?

/-- All shortest simple directed paths from `s` to `t`. -/
def shortestPaths (g : NXDiGraph) (s t : String) : List (List String) :=
  match spShortestLen? g s t with
  | none => []
  | some len => (stSimplePaths g s t).filter (fun p => p.length = len)

/-- The strict interior of a path (all nodes but the endpoints). -/
def pathInterior (p : List String) : List String := (p.drop 1).dropLast

/-- `σ_st`: the number of shortest `s→t` paths. -/
def sigma (g : NXDiGraph) (s t : String) : Nat := (shortestPaths g s t).length

/-- `σ_st(v)`: the number of shortest `s→t` paths through `v`. -/
def sigmaThrough (g : NXDiGraph) (s t v : String) : Nat :=
  ((shortestPaths g s t).filter (fun p => v ∈ pathInterior p)).length

/-- Unscaled betweenness: `Σ_{s≠t, v∉{s,t}} σ_st(v)/σ_st` (a zero
`σ_st` contributes zero). -/
def rawBetweenness (g : NXDiGraph) (v : String) : ℚ :=
  ((g.nodeIds.flatMap (fun s => g.nodeIds.map (fun t => (s, t)))).map (fun st =>
    if st.1 ≠ st.2 ∧ v ≠ st.1 ∧ v ≠ st.2 then
      (sigmaThrough g st.1 st.2 v : ℚ) / (sigma g st.1 st.2 : ℚ)
    else 0)).sum

/-- `nx.betweenness_centrality(G)` on the directed transfer network. -/
def nxBetweenness (g : NXDiGraph) (v : String) : ℚ :=
  let n := g.nodeIds.length
  if 2 < n then rawBetweenness g v / (((n : ℚ) - 1) * ((n : ℚ) - 2))
  else rawBetweenness g v

/-! ## `FraudDetector` -/

/-- One row of `FraudDetector.calculate_centrality_scores`. -/
structure CentralityRow where
  user_id : String
  pagerank : ℚ
  in_degree : Nat
  out_degree : Nat
  betweenness : ℚ
  is_fraudster : Bool
  deriving DecidableEq, Repr

/-- The `user_nodes` list of `calculate_centrality_scores`: nodes of
the transfer network whose `is_fraudster` attribute is present. -/
def userNodesOf (tn : NXDiGraph) : List String :=
  tn.nodeIds.filter (fun n => ((tn.nodeAttr? n).bind (·.is_fraudster)).isSome)

/-- One output record of `calculate_centrality_scores`. -/
def mkCentralityRow (tn : NXDiGraph) (n : String) : CentralityRow :=
  { user_id := n
    pagerank := nxPagerank tn n
    in_degree := tn.inDeg n
    out_degree := tn.outDeg n
    betweenness := nxBetweenness tn n
    is_fraudster := ((tn.nodeAttr? n).bind (·.is_fraudster)).getD false }

/-- `FraudDetector.calculate_centrality_scores` (fraud_detector.py
lines 37–68): one record per transfer-network node carrying an
`is_fraudster` attribute; an empty node list yields an empty frame. -/
def calculateCentralityScores (fg : FraudGraphS) : List CentralityRow :=
  let tn := fg.transaction_network
  if userNodesOf tn = [] then []
  else (userNodesOf tn).map (mkCentralityRow tn)

/-- One record of `FraudDetector.detect_shared_resources`. -/
structure ResourceRec where
  device_id : String
  shared_by_count : Nat
  shared_by : List String
  fraudster_count : Nat
  risk_score : ℚ
  deriving DecidableEq, Repr

/-- `FraudDetector.detect_shared_resources` (lines 70–89): per shared
device, the fraction of fraud-labelled sharers, sorted descending by
that ratio (Python `sorted(..., reverse=True)` is a stable descending
sort). -/
def mkResourceRec (g : NXGraph) (du : String × List String) : ResourceRec :=
  let fraud := (du.2.filter (fun u => ((g.nodeAttr? u).bind (·.is_fraudster)).getD false)).length
  { device_id := du.1
    shared_by_count := du.2.length
    shared_by := du.2
    fraudster_count := fraud
    risk_score := if du.2 = [] then 0 else (fraud : ℚ) / (du.2.length : ℚ) }

def detectSharedResources (g : NXGraph) : List ResourceRec :=
  ((getSharedDevices g).map (mkResourceRec g)).mergeSort
    (fun a b => decide (b.risk_score ≤ a.risk_score))

/-- One row of the risk table produced by
`FraudDetector.compute_risk_scores` (all columns of the frame). -/
structure RiskRow where
  user_id : String
  pagerank : ℚ
  in_degree : Nat
  out_degree : Nat
  betweenness : ℚ
  is_fraudster : Bool
  pagerank_norm : ℚ
  betweenness_norm : ℚ
  device_risk : ℚ
  account_age_days : Int
  age_risk : ℚ
  avg_txn_amount : ℚ
  amount_risk : ℚ
  txn_count : Nat
  volume_risk : ℚ
  risk_score : ℚ
  deriving DecidableEq, Repr

/-- The shared-device risk dictionary of `compute_risk_scores` (lines
133–138): the maximum risk ratio over the shared devices a user
appears on, `0` when they appear on none. -/
def deviceRiskOf (shared : List ResourceRec) (u : String) : ℚ :=
  shared.foldl (fun acc r => if u ∈ r.shared_by then max acc r.risk_score else acc) 0

/-- `FraudDetector.compute_risk_scores` (lines 121–175).  Centrality
columns are normalized by their batch maximum (0 when the maximum is
not positive); transaction-derived signals come from the *raw*
transfer table grouped by sender; passing no transfer table
(`transactions_df=None`) resets `age_risk`, `amount_risk` and
`volume_risk` to 0; rows are sorted descending by composite score. -/
def mkRiskRow (g : NXGraph) (maxPr maxBw : ℚ) (shared : List ResourceRec)
    (txns? : Option (List TxnRow)) (c : CentralityRow) : RiskRow :=
  let pn : ℚ := if 0 < maxPr then c.pagerank / maxPr else 0
  let bn : ℚ := if 0 < maxBw then c.betweenness / maxBw else 0
  let dr : ℚ := deviceRiskOf shared c.user_id
  let age : Int := ((g.nodeAttr? c.user_id).bind (·.account_age_days)).getD 365
  let ar : ℚ := (90 - min (age : ℚ) 90) / 90
  match txns? with
  | some tdf =>
    let mine := tdf.filter (fun t => t.sender_id = c.user_id)
    let avg : ℚ := if mine = [] then 0 else (mine.map (·.amount)).sum / (mine.length : ℚ)
    let amr : ℚ := max (avg - 500) 0 / 2500
    let vor : ℚ := max ((mine.length : ℚ) - 7) 0 / 15
    { user_id := c.user_id, pagerank := c.pagerank, in_degree := c.in_degree
      out_degree := c.out_degree, betweenness := c.betweenness
      is_fraudster := c.is_fraudster
      pagerank_norm := pn, betweenness_norm := bn, device_risk := dr
      account_age_days := age, age_risk := ar
      avg_txn_amount := avg, amount_risk := amr
      txn_count := mine.length, volume_risk := vor
      risk_score := (1/20) * pn + (1/20) * bn + (7/20) * dr + (1/4) * ar
        + (1/5) * amr + (1/10) * vor }
  | none =>
    { user_id := c.user_id, pagerank := c.pagerank, in_degree := c.in_degree
      out_degree := c.out_degree, betweenness := c.betweenness
      is_fraudster := c.is_fraudster
      pagerank_norm := pn, betweenness_norm := bn, device_risk := dr
      account_age_days := age, age_risk := 0
      avg_txn_amount := 0, amount_risk := 0
      txn_count := 0, volume_risk := 0
      risk_score := (1/20) * pn + (1/20) * bn + (7/20) * dr + (1/4) * 0
        + (1/5) * 0 + (1/10) * 0 }

/-- `FraudDetector.compute_risk_scores` (lines 121–175).  Centrality
columns are normalized by their batch maximum (0 when the maximum is
not positive); transaction-derived signals come from the *raw*
transfer table grouped by sender; passing no transfer table
(`transactions_df=None`) resets `age_risk`, `amount_risk` and
`volume_risk` to 0; rows are sorted descending by composite score. -/
def computeRiskScores (g : NXGraph) (centrality : List CentralityRow)
    (shared : List ResourceRec) (txns? : Option (List TxnRow)) : List RiskRow :=
  let maxPr := (centrality.map (·.pagerank)).foldl max 0
  let maxBw := (centrality.map (·.betweenness)).foldl max 0
  (centrality.map (mkRiskRow g maxPr maxBw shared txns?)).mergeSort
    (fun a b => decide (b.risk_score ≤ a.risk_score))

/-- The `high_risk_users` entry of
`FraudDetector.generate_fraud_report` (line 210): ids of rows whose
composite score strictly exceeds the threshold. -/
def highRiskUsers (riskDf : List RiskRow) (threshold : ℚ) : List String :=
  (riskDf.filter (fun r => threshold < r.risk_score)).map (·.user_id)

/-- The full analysis pass feeding the query layer: build the graph,
compute centrality and shared resources, and score every account
against the dataset's transfer table. -/
def riskTable (ds : Dataset) : List RiskRow :=
  let fg := buildFromDataset ds
  computeRiskScores fg.G (calculateCentralityScores fg) (detectSharedResources fg.G)
    (some ds.transactions)

/-! ## `GraphRAG` suspicious-pattern digest -/

/-- Python 3 `round(q, 3)` (round half to even at 3 decimals). -/
def pyRound3 (q : ℚ) : ℚ :=
  let x := q * 1000
  let f : Int := ⌊x⌋
  let r := x - (f : ℚ)
  ((if r < 1/2 then f else if 1/2 < r then f + 1 else if f % 2 = 0 then f else f + 1 : Int) : ℚ)
    / 1000

/-- The dictionary returned by the accuracy branch: the no-high-risk
branch carries `{precision: 0.0, recall: 0.0}` (no `f1_score` key). -/
structure AccuracyDict where
  precision : ℚ
  «recall» : ℚ
  f1_score : Option ℚ
  deriving DecidableEq, Repr

/-- `GraphRAG._calculate_detection_accuracy` (graph_rag.py lines
205–228): `none` for an empty risk frame; precision/recall/F1 using
the 0-denominator-gives-0 convention otherwise. -/
def calculateDetectionAccuracy (riskDf : List RiskRow) (threshold : ℚ) :
    Option AccuracyDict :=
  if riskDf = [] then none
  else
    let highRisk := riskDf.filter (fun r => threshold < r.risk_score)
    if highRisk.length = 0 then some ⟨0, 0, none⟩
    else
      let tp := (highRisk.filter (fun r => r.is_fraudster = true)).length
      let fp := (highRisk.filter (fun r => r.is_fraudster = false)).length
      let totalFraud := (riskDf.filter (fun r => r.is_fraudster = true)).length
      let precision : ℚ := if 0 < tp + fp then (tp : ℚ) / ((tp : ℚ) + (fp : ℚ)) else 0
      let «recall» : ℚ := if 0 < totalFraud then (tp : ℚ) / (totalFraud : ℚ) else 0
      let f1 : ℚ := if 0 < precision + «recall» then
          pyRound3 (2 * (precision * «recall») / (precision + «recall»)) else 0
      some ⟨pyRound3 precision, pyRound3 «recall», some f1⟩

/-- The record returned by `GraphRAG._query_suspicious_patterns`. -/
structure SuspiciousPatterns where
  high_risk_users : List (String × ℚ × Bool)
  shared_device_clusters : List ResourceRec
  detection_accuracy : Option AccuracyDict
  deriving DecidableEq, Repr

/-- `GraphRAG._query_suspicious_patterns(top_n, risk_threshold)`
(lines 189–203) over a freshly computed risk table. -/
def querySuspiciousPatterns (ds : Dataset) (topN : Nat) (threshold : ℚ) :
    SuspiciousPatterns :=
  let fg := buildFromDataset ds
  let shared := detectSharedResources fg.G
  let riskDf := computeRiskScores fg.G (calculateCentralityScores fg) shared
    (some ds.transactions)
  { high_risk_users := ((riskDf.filter (fun r => threshold < r.risk_score)).take topN).map
      (fun r => (r.user_id, r.risk_score, r.is_fraudster))
    shared_device_clusters := (shared.filter (fun r => 2 < r.shared_by_count)).take 5
    detection_accuracy := calculateDetectionAccuracy riskDf threshold }

/-! # Verification

## Generic list lemmas for the association-list graph operations -/

/-- Updating exactly the entries selected by `p` (with a `p`-preserving
update) commutes with `find? p`. -/
theorem find?_map_update {α : Type} (p : α → Bool) (f : α → α)
    (hf : ∀ a, p a = true → p (f a) = true) :
    ∀ l : List α, (l.map (fun a => if p a then f a else a)).find? p = (l.find? p).map f := by
  intro l
  induction l with
  | nil => rfl
  | cons a l ih =>
    by_cases h : p a = true
    · simp [List.find?_cons, h, hf a h]
    · simp only [Bool.not_eq_true] at h
      simp [List.find?_cons, h, ih]

/-- Updating entries selected by `q` (key fields untouched) does not
change the count of entries selected by any key predicate `p`. -/
theorem countP_map_update {α : Type} (p q : α → Bool) (f : α → α)
    (hf : ∀ a, p (if q a then f a else a) = p a) :
    ∀ l : List α, (l.map (fun a => if q a then f a else a)).countP p = l.countP p := by
  intro l
  induction l with
  | nil => rfl
  | cons a l ih =>
    simp [List.countP_cons, ih, hf a]

/-- `find?` on p-disjointly updated lists (matching entries untouched). -/
theorem find?_map_update_ne {α : Type} (p q : α → Bool) (f : α → α)
    (hid : ∀ a, p a = true → (if q a then f a else a) = a)
    (hkeep : ∀ a, p (if q a then f a else a) = p a) :
    ∀ l : List α, (l.map (fun a => if q a then f a else a)).find? p = l.find? p := by
  intro l
  induction l with
  | nil => rfl
  | cons a l ih =>
    by_cases h : p a = true
    · simp [List.find?_cons, hkeep a, h, hid a h]
    · simp only [Bool.not_eq_true] at h
      simp [List.find?_cons, hkeep a, h, ih]

/-- `find?` over an append, when the first part has no match. -/
theorem find?_append_of_none {α : Type} (p : α → Bool) (l₁ l₂ : List α)
    (h : l₁.find? p = none) : (l₁ ++ l₂).find? p = l₂.find? p := by
  induction l₁ with
  | nil => rfl
  | cons a l ih =>
    rw [List.find?_cons] at h
    rw [List.cons_append, List.find?_cons]
    cases hp : p a with
    | true => simp [hp] at h
    | false => simp only [hp] at h ⊢; exact ih h

/-- `find?` over an append, when the first part has a match. -/
theorem find?_append_of_some {α : Type} (p : α → Bool) (l₁ l₂ : List α) (a : α)
    (h : l₁.find? p = some a) : (l₁ ++ l₂).find? p = some a := by
  induction l₁ with
  | nil => simp at h
  | cons x l ih =>
    rw [List.find?_cons] at h
    rw [List.cons_append, List.find?_cons]
    cases hp : p x with
    | true => simpa [hp] using h
    | false => simp only [hp] at h ⊢; exact ih h

/-! ## Directed-edge upsert lemmas and the transfer-network
aggregation (`C3`) -/

namespace NXDiGraph

theorem edges_addNode (g : NXDiGraph) (n : String) (f : DiNodeAttr → DiNodeAttr) :
    (g.addNode n f).edges = g.edges := rfl

theorem edges_addEdge (g : NXDiGraph) (a b : String) (f : Option TxnEdgeAttr → TxnEdgeAttr) :
    (g.addEdge a b f).edges = upsertDEdge a b f g.edges := rfl

theorem find?_upsertDEdge_self (a b : String) (f : Option TxnEdgeAttr → TxnEdgeAttr)
    (l : List (String × String × TxnEdgeAttr)) :
    ((upsertDEdge a b f l).find? (fun e => e.1 = a ∧ e.2.1 = b)).map (·.2.2)
      = some (f ((l.find? (fun e => e.1 = a ∧ e.2.1 = b)).map (·.2.2))) := by
  induction l with
  | nil => simp [upsertDEdge]
  | cons e es ih =>
    by_cases h : e.1 = a ∧ e.2.1 = b
    · have hb : decide (e.1 = a ∧ e.2.1 = b) = true := decide_eq_true h
      simp only [upsertDEdge, if_pos h]
      rw [List.find?_cons, List.find?_cons]
      simp [hb]
    · have hb : decide (e.1 = a ∧ e.2.1 = b) = false := decide_eq_false h
      simp only [upsertDEdge, if_neg h]
      rw [List.find?_cons, List.find?_cons]
      simp only [hb]
      exact ih

theorem find?_upsertDEdge_ne (a b c d : String) (f : Option TxnEdgeAttr → TxnEdgeAttr)
    (l : List (String × String × TxnEdgeAttr)) (h : ¬(c = a ∧ d = b)) :
    (upsertDEdge c d f l).find? (fun e => e.1 = a ∧ e.2.1 = b)
      = l.find? (fun e => e.1 = a ∧ e.2.1 = b) := by
  induction l with
  | nil =>
    have hb : decide ((c = a ∧ d = b)) = false := decide_eq_false h
    simp only [upsertDEdge]
    rw [List.find?_cons]
    simp [hb]
  | cons e es ih =>
    by_cases hk : e.1 = c ∧ e.2.1 = d
    · have hne : ¬(e.1 = a ∧ e.2.1 = b) := by
        rintro ⟨h1, h2⟩
        exact h ⟨by rw [← hk.1, h1], by rw [← hk.2, h2]⟩
      have hb : decide (e.1 = a ∧ e.2.1 = b) = false := decide_eq_false hne
      simp only [upsertDEdge, if_pos hk]
      rw [List.find?_cons, List.find?_cons]
      simp only [hb]
    · have hkb := hk
      by_cases he : e.1 = a ∧ e.2.1 = b
      · have hb : decide (e.1 = a ∧ e.2.1 = b) = true := decide_eq_true he
        simp only [upsertDEdge, if_neg hk]
        rw [List.find?_cons, List.find?_cons]
        simp only [hb]
      · have hb : decide (e.1 = a ∧ e.2.1 = b) = false := decide_eq_false he
        simp only [upsertDEdge, if_neg hk]
        rw [List.find?_cons, List.find?_cons]
        simp only [hb]
        exact ih

theorem countP_upsertDEdge_self (a b : String) (f : Option TxnEdgeAttr → TxnEdgeAttr)
    (l : List (String × String × TxnEdgeAttr)) :
    (upsertDEdge a b f l).countP (fun e => e.1 = a ∧ e.2.1 = b)
      = max (l.countP (fun e => e.1 = a ∧ e.2.1 = b)) 1 := by
  induction l with
  | nil => simp [upsertDEdge]
  | cons e es ih =>
    by_cases h : e.1 = a ∧ e.2.1 = b
    · have hb : decide (e.1 = a ∧ e.2.1 = b) = true := decide_eq_true h
      simp only [upsertDEdge, if_pos h]
      rw [List.countP_cons, List.countP_cons]
      simp [hb]
    · have hb : decide (e.1 = a ∧ e.2.1 = b) = false := decide_eq_false h
      simp only [upsertDEdge, if_neg h]
      rw [List.countP_cons, List.countP_cons]
      simp only [hb]
      simp only [if_neg (by simp : ¬(false = true))]
      simpa using ih

theorem countP_upsertDEdge_ne (a b c d : String) (f : Option TxnEdgeAttr → TxnEdgeAttr)
    (l : List (String × String × TxnEdgeAttr)) (h : ¬(c = a ∧ d = b)) :
    (upsertDEdge c d f l).countP (fun e => e.1 = a ∧ e.2.1 = b)
      = l.countP (fun e => e.1 = a ∧ e.2.1 = b) := by
  induction l with
  | nil =>
    have hb : decide ((c = a ∧ d = b)) = false := decide_eq_false h
    simp only [upsertDEdge]
    rw [List.countP_cons]
    simp [hb]
  | cons e es ih =>
    by_cases hk : e.1 = c ∧ e.2.1 = d
    · simp only [upsertDEdge, if_pos hk]
      rw [List.countP_cons, List.countP_cons]
    · simp only [upsertDEdge, if_neg hk]
      rw [List.countP_cons, List.countP_cons]
      simp only [Nat.add_right_cancel_iff]
      simpa using ih

end NXDiGraph

/-- Completed transfers from `a` to `b`, in table order. -/
def completedBetween (ds : Dataset) (a b : String) : List TxnRow :=
  ds.transactions.filter (fun t => t.status = "completed" ∧ t.sender_id = a ∧ t.receiver_id = b)

theorem edgeAttr?_addTxnEdgeT_key (a b : String) (g : NXDiGraph) (t : TxnRow)
    (hc : t.status = "completed") (hk : t.sender_id = a ∧ t.receiver_id = b) :
    (addTxnEdgeT g t).edgeAttr? a b = some (txnStep t (g.edgeAttr? a b)) := by
  unfold addTxnEdgeT
  rw [if_pos hc]
  unfold NXDiGraph.edgeAttr?
  rw [NXDiGraph.edges_addEdge, hk.1, hk.2]
  exact NXDiGraph.find?_upsertDEdge_self a b (txnStep t) g.edges

theorem edgeAttr?_addTxnEdgeT_other (a b : String) (g : NXDiGraph) (t : TxnRow)
    (h : ¬(t.status = "completed" ∧ t.sender_id = a ∧ t.receiver_id = b)) :
    (addTxnEdgeT g t).edgeAttr? a b = g.edgeAttr? a b := by
  unfold addTxnEdgeT
  by_cases hc : t.status = "completed"
  · rw [if_pos hc]
    have hk : ¬(t.sender_id = a ∧ t.receiver_id = b) := fun hk => h ⟨hc, hk⟩
    unfold NXDiGraph.edgeAttr?
    rw [NXDiGraph.edges_addEdge]
    rw [NXDiGraph.find?_upsertDEdge_ne _ _ _ _ _ _ hk]
  · rw [if_neg hc]

theorem countP_addTxnEdgeT_key (a b : String) (g : NXDiGraph) (t : TxnRow)
    (hc : t.status = "completed") (hk : t.sender_id = a ∧ t.receiver_id = b) :
    (addTxnEdgeT g t).edges.countP (fun e => e.1 = a ∧ e.2.1 = b)
      = max (g.edges.countP (fun e => e.1 = a ∧ e.2.1 = b)) 1 := by
  unfold addTxnEdgeT
  rw [if_pos hc]
  rw [NXDiGraph.edges_addEdge, hk.1, hk.2]
  exact NXDiGraph.countP_upsertDEdge_self a b (txnStep t) g.edges

theorem countP_addTxnEdgeT_other (a b : String) (g : NXDiGraph) (t : TxnRow)
    (h : ¬(t.status = "completed" ∧ t.sender_id = a ∧ t.receiver_id = b)) :
    (addTxnEdgeT g t).edges.countP (fun e => e.1 = a ∧ e.2.1 = b)
      = g.edges.countP (fun e => e.1 = a ∧ e.2.1 = b) := by
  unfold addTxnEdgeT
  by_cases hc : t.status = "completed"
  · rw [if_pos hc]
    have hk : ¬(t.sender_id = a ∧ t.receiver_id = b) := fun hk => h ⟨hc, hk⟩
    rw [NXDiGraph.edges_addEdge]
    exact NXDiGraph.countP_upsertDEdge_ne _ _ _ _ _ _ hk
  · rw [if_neg hc]

theorem edgeAttr?_foldl_addTxnEdgeT (a b : String) :
    ∀ (ts : List TxnRow) (g : NXDiGraph),
      (ts.foldl addTxnEdgeT g).edgeAttr? a b =
        (ts.filter (fun t => t.status = "completed" ∧ t.sender_id = a ∧ t.receiver_id = b)).foldl
          (fun o t => some (txnStep t o)) (g.edgeAttr? a b) := by
  intro ts
  induction ts with
  | nil => intro g; rfl
  | cons t ts ih =>
    intro g
    rw [List.foldl_cons, List.filter_cons]
    by_cases hp : t.status = "completed" ∧ t.sender_id = a ∧ t.receiver_id = b
    · rw [if_pos (decide_eq_true hp), List.foldl_cons, ih]
      rw [edgeAttr?_addTxnEdgeT_key a b g t hp.1 hp.2]
    · rw [if_neg (fun hd => hp (of_decide_eq_true hd)), ih]
      rw [edgeAttr?_addTxnEdgeT_other a b g t hp]

theorem countP_foldl_addTxnEdgeT (a b : String) :
    ∀ (ts : List TxnRow) (g : NXDiGraph),
      (ts.foldl addTxnEdgeT g).edges.countP (fun e => e.1 = a ∧ e.2.1 = b) =
        if ts.filter (fun t => t.status = "completed" ∧ t.sender_id = a ∧ t.receiver_id = b) = []
        then g.edges.countP (fun e => e.1 = a ∧ e.2.1 = b)
        else max (g.edges.countP (fun e => e.1 = a ∧ e.2.1 = b)) 1 := by
  intro ts
  induction ts with
  | nil => intro g; simp
  | cons t ts ih =>
    intro g
    rw [List.foldl_cons, List.filter_cons]
    by_cases hp : t.status = "completed" ∧ t.sender_id = a ∧ t.receiver_id = b
    · rw [if_pos (decide_eq_true hp)]
      rw [if_neg (List.cons_ne_nil _ _)]
      rw [ih, countP_addTxnEdgeT_key a b g t hp.1 hp.2]
      split
      · rfl
      · rw [Nat.max_assoc, Nat.max_self]
    · rw [if_neg (fun hd => hp (of_decide_eq_true hd))]
      rw [ih, countP_addTxnEdgeT_other a b g t hp]

theorem foldl_txnStep_some :
    ∀ (l : List TxnRow) (v : TxnEdgeAttr),
      l.foldl (fun o t => some (txnStep t o)) (some v)
        = some ⟨v.total_amount + (l.map (·.amount)).sum, v.transaction_count + l.length⟩ := by
  intro l
  induction l with
  | nil => intro v; simp
  | cons t ts ih =>
    intro v
    rw [List.foldl_cons, ih]
    simp only [txnStep, List.map_cons, List.sum_cons, List.length_cons, Option.some.injEq,
      TxnEdgeAttr.mk.injEq]
    exact ⟨by rw [add_assoc], by omega⟩

theorem foldl_txnStep_none (l : List TxnRow) (h : l ≠ []) :
    l.foldl (fun o t => some (txnStep t o)) none
      = some ⟨(l.map (·.amount)).sum, l.length⟩ := by
  cases l with
  | nil => exact absurd rfl h
  | cons t ts =>
    rw [List.foldl_cons]
    show ts.foldl _ (some (txnStep t none)) = _
    rw [foldl_txnStep_some]
    simp only [txnStep, List.map_cons, List.sum_cons, List.length_cons, Option.some.injEq,
      TxnEdgeAttr.mk.injEq]
    exact ⟨trivial, by omega⟩

theorem edges_foldl_addUserNodeT :
    ∀ (us : List UserRow) (g : NXDiGraph), (us.foldl addUserNodeT g).edges = g.edges := by
  intro us
  induction us with
  | nil => intro g; rfl
  | cons u us ih => intro g; rw [List.foldl_cons]; exact ih _

/-- The in-process transfer network aggregates completed transfers per
ordered pair: a single edge carrying the amount total and count, and no
edge at all for pairs without completed transfers. -/
theorem buildT_edge_characterization (ds : Dataset) (a b : String) :
    (completedBetween ds a b ≠ [] →
      (buildT ds).edgeAttr? a b
        = some ⟨((completedBetween ds a b).map (·.amount)).sum, (completedBetween ds a b).length⟩
      ∧ (buildT ds).edges.countP (fun e => e.1 = a ∧ e.2.1 = b) = 1)
    ∧ (completedBetween ds a b = [] →
      (buildT ds).edgeAttr? a b = none
      ∧ (buildT ds).edges.countP (fun e => e.1 = a ∧ e.2.1 = b) = 0) := by
  have hinit : (ds.users.foldl addUserNodeT (NXDiGraph.mk [] [])).edges = [] :=
    edges_foldl_addUserNodeT ds.users _
  have he : (buildT ds).edgeAttr? a b =
      (completedBetween ds a b).foldl (fun o t => some (txnStep t o)) none := by
    unfold buildT completedBetween
    rw [edgeAttr?_foldl_addTxnEdgeT]
    congr 1
    unfold NXDiGraph.edgeAttr?
    rw [hinit]
    rfl
  have hc : (buildT ds).edges.countP (fun e => e.1 = a ∧ e.2.1 = b) =
      if completedBetween ds a b = [] then 0 else 1 := by
    unfold buildT completedBetween
    rw [countP_foldl_addTxnEdgeT]
    rw [hinit]
    rfl
  constructor
  · intro hne
    refine ⟨?_, ?_⟩
    · rw [he, foldl_txnStep_none _ hne]
    · rw [hc, if_neg hne]
  · intro hnil
    refine ⟨?_, ?_⟩
    · rw [he, hnil]; rfl
    · rw [hc, if_pos hnil]

/-! ## The Neo4j in-memory mirror: last completed transfer wins -/

namespace N4DiGraph

theorem edges_addNodeN4 (g : N4DiGraph) (n : String) (f : DiNodeAttr → DiNodeAttr) :
    (g.addNode n f).edges = g.edges := rfl

theorem edges_setEdge (g : N4DiGraph) (a b : String) (v : N4EdgeAttr) :
    (g.setEdge a b v).edges = upsertN4Edge a b v g.edges := rfl

theorem edges_ite_addNode (c : Prop) [Decidable c] (g : N4DiGraph) (n : String)
    (f : DiNodeAttr → DiNodeAttr) :
    (if c then g else g.addNode n f).edges = g.edges := by
  split <;> rfl

theorem find?_upsertN4Edge_self (a b : String) (v : N4EdgeAttr)
    (l : List (String × String × N4EdgeAttr)) :
    ((upsertN4Edge a b v l).find? (fun e => e.1 = a ∧ e.2.1 = b)).map (·.2.2) = some v := by
  induction l with
  | nil => simp [upsertN4Edge]
  | cons e es ih =>
    by_cases h : e.1 = a ∧ e.2.1 = b
    · have hb : decide (e.1 = a ∧ e.2.1 = b) = true := decide_eq_true h
      simp only [upsertN4Edge, if_pos h]
      rw [List.find?_cons]
      simp [hb]
    · have hb : decide (e.1 = a ∧ e.2.1 = b) = false := decide_eq_false h
      simp only [upsertN4Edge, if_neg h]
      rw [List.find?_cons]
      simp only [hb]
      exact ih

theorem find?_upsertN4Edge_ne (a b c d : String) (v : N4EdgeAttr)
    (l : List (String × String × N4EdgeAttr)) (h : ¬(c = a ∧ d = b)) :
    (upsertN4Edge c d v l).find? (fun e => e.1 = a ∧ e.2.1 = b)
      = l.find? (fun e => e.1 = a ∧ e.2.1 = b) := by
  induction l with
  | nil =>
    have hb : decide ((c = a ∧ d = b)) = false := decide_eq_false h
    simp only [upsertN4Edge]
    rw [List.find?_cons]
    simp [hb]
  | cons e es ih =>
    by_cases hk : e.1 = c ∧ e.2.1 = d
    · have hne : ¬(e.1 = a ∧ e.2.1 = b) := by
        rintro ⟨h1, h2⟩
        exact h ⟨by rw [← hk.1, h1], by rw [← hk.2, h2]⟩
      have hb : decide (e.1 = a ∧ e.2.1 = b) = false := decide_eq_false hne
      simp only [upsertN4Edge, if_pos hk]
      rw [List.find?_cons, List.find?_cons]
      simp only [hb]
    · by_cases he : e.1 = a ∧ e.2.1 = b
      · have hb : decide (e.1 = a ∧ e.2.1 = b) = true := decide_eq_true he
        simp only [upsertN4Edge, if_neg hk]
        rw [List.find?_cons, List.find?_cons]
        simp only [hb]
      · have hb : decide (e.1 = a ∧ e.2.1 = b) = false := decide_eq_false he
        simp only [upsertN4Edge, if_neg hk]
        rw [List.find?_cons, List.find?_cons]
        simp only [hb]
        exact ih

theorem countP_upsertN4Edge_self (a b : String) (v : N4EdgeAttr)
    (l : List (String × String × N4EdgeAttr)) :
    (upsertN4Edge a b v l).countP (fun e => e.1 = a ∧ e.2.1 = b)
      = max (l.countP (fun e => e.1 = a ∧ e.2.1 = b)) 1 := by
  induction l with
  | nil => simp [upsertN4Edge]
  | cons e es ih =>
    by_cases h : e.1 = a ∧ e.2.1 = b
    · have hb : decide (e.1 = a ∧ e.2.1 = b) = true := decide_eq_true h
      simp only [upsertN4Edge, if_pos h]
      rw [List.countP_cons, List.countP_cons]
      simp [hb]
    · have hb : decide (e.1 = a ∧ e.2.1 = b) = false := decide_eq_false h
      simp only [upsertN4Edge, if_neg h]
      rw [List.countP_cons, List.countP_cons]
      simp only [hb]
      simp only [if_neg (by simp : ¬(false = true))]
      simpa using ih

theorem countP_upsertN4Edge_ne (a b c d : String) (v : N4EdgeAttr)
    (l : List (String × String × N4EdgeAttr)) (h : ¬(c = a ∧ d = b)) :
    (upsertN4Edge c d v l).countP (fun e => e.1 = a ∧ e.2.1 = b)
      = l.countP (fun e => e.1 = a ∧ e.2.1 = b) := by
  induction l with
  | nil =>
    have hb : decide ((c = a ∧ d = b)) = false := decide_eq_false h
    simp only [upsertN4Edge]
    rw [List.countP_cons]
    simp [hb]
  | cons e es ih =>
    by_cases hk : e.1 = c ∧ e.2.1 = d
    · simp only [upsertN4Edge, if_pos hk]
      rw [List.countP_cons, List.countP_cons]
    · simp only [upsertN4Edge, if_neg hk]
      rw [List.countP_cons, List.countP_cons]
      simp only [Nat.add_right_cancel_iff]
      simpa using ih

end N4DiGraph

/-- The Neo4j edge attribute of one transaction row. -/
def n4Attr (t : TxnRow) : N4EdgeAttr := ⟨t.transaction_id, t.amount, t.is_fraudulent⟩

theorem edgeAttr?_n4AddTxn_key (a b : String) (g : N4DiGraph) (t : TxnRow)
    (hc : t.status = "completed") (hk : t.sender_id = a ∧ t.receiver_id = b) :
    (n4AddTxn g t).edgeAttr? a b = some (n4Attr t) := by
  unfold n4AddTxn
  rw [if_pos hc]
  unfold N4DiGraph.edgeAttr?
  rw [N4DiGraph.edges_setEdge, N4DiGraph.edges_ite_addNode, N4DiGraph.edges_ite_addNode,
    hk.1, hk.2]
  exact N4DiGraph.find?_upsertN4Edge_self a b (n4Attr t) _

theorem edgeAttr?_n4AddTxn_other (a b : String) (g : N4DiGraph) (t : TxnRow)
    (h : ¬(t.status = "completed" ∧ t.sender_id = a ∧ t.receiver_id = b)) :
    (n4AddTxn g t).edgeAttr? a b = g.edgeAttr? a b := by
  unfold n4AddTxn
  by_cases hc : t.status = "completed"
  · rw [if_pos hc]
    have hk : ¬(t.sender_id = a ∧ t.receiver_id = b) := fun hk => h ⟨hc, hk⟩
    unfold N4DiGraph.edgeAttr?
    rw [N4DiGraph.edges_setEdge, N4DiGraph.edges_ite_addNode, N4DiGraph.edges_ite_addNode]
    rw [N4DiGraph.find?_upsertN4Edge_ne _ _ _ _ _ _ hk]
  · rw [if_neg hc]

theorem countP_n4AddTxn_key (a b : String) (g : N4DiGraph) (t : TxnRow)
    (hc : t.status = "completed") (hk : t.sender_id = a ∧ t.receiver_id = b) :
    (n4AddTxn g t).edges.countP (fun e => e.1 = a ∧ e.2.1 = b)
      = max (g.edges.countP (fun e => e.1 = a ∧ e.2.1 = b)) 1 := by
  unfold n4AddTxn
  rw [if_pos hc]
  rw [N4DiGraph.edges_setEdge, N4DiGraph.edges_ite_addNode, N4DiGraph.edges_ite_addNode,
    hk.1, hk.2]
  exact N4DiGraph.countP_upsertN4Edge_self a b (n4Attr t) _

theorem countP_n4AddTxn_other (a b : String) (g : N4DiGraph) (t : TxnRow)
    (h : ¬(t.status = "completed" ∧ t.sender_id = a ∧ t.receiver_id = b)) :
    (n4AddTxn g t).edges.countP (fun e => e.1 = a ∧ e.2.1 = b)
      = g.edges.countP (fun e => e.1 = a ∧ e.2.1 = b) := by
  unfold n4AddTxn
  by_cases hc : t.status = "completed"
  · rw [if_pos hc]
    have hk : ¬(t.sender_id = a ∧ t.receiver_id = b) := fun hk => h ⟨hc, hk⟩
    rw [N4DiGraph.edges_setEdge, N4DiGraph.edges_ite_addNode, N4DiGraph.edges_ite_addNode]
    exact N4DiGraph.countP_upsertN4Edge_ne _ _ _ _ _ _ hk
  · rw [if_neg hc]

theorem edgeAttr?_foldl_n4AddTxn (a b : String) :
    ∀ (ts : List TxnRow) (g : N4DiGraph),
      (ts.foldl n4AddTxn g).edgeAttr? a b =
        (ts.filter (fun t => t.status = "completed" ∧ t.sender_id = a ∧ t.receiver_id = b)).foldl
          (fun _ t => some (n4Attr t)) (g.edgeAttr? a b) := by
  intro ts
  induction ts with
  | nil => intro g; rfl
  | cons t ts ih =>
    intro g
    rw [List.foldl_cons, List.filter_cons]
    by_cases hp : t.status = "completed" ∧ t.sender_id = a ∧ t.receiver_id = b
    · rw [if_pos (decide_eq_true hp), List.foldl_cons, ih]
      rw [edgeAttr?_n4AddTxn_key a b g t hp.1 hp.2]
    · rw [if_neg (fun hd => hp (of_decide_eq_true hd)), ih]
      rw [edgeAttr?_n4AddTxn_other a b g t hp]

theorem countP_foldl_n4AddTxn (a b : String) :
    ∀ (ts : List TxnRow) (g : N4DiGraph),
      (ts.foldl n4AddTxn g).edges.countP (fun e => e.1 = a ∧ e.2.1 = b) =
        if ts.filter (fun t => t.status = "completed" ∧ t.sender_id = a ∧ t.receiver_id = b) = []
        then g.edges.countP (fun e => e.1 = a ∧ e.2.1 = b)
        else max (g.edges.countP (fun e => e.1 = a ∧ e.2.1 = b)) 1 := by
  intro ts
  induction ts with
  | nil => intro g; simp
  | cons t ts ih =>
    intro g
    rw [List.foldl_cons, List.filter_cons]
    by_cases hp : t.status = "completed" ∧ t.sender_id = a ∧ t.receiver_id = b
    · rw [if_pos (decide_eq_true hp)]
      rw [if_neg (List.cons_ne_nil _ _)]
      rw [ih, countP_n4AddTxn_key a b g t hp.1 hp.2]
      split
      · rfl
      · rw [Nat.max_assoc, Nat.max_self]
    · rw [if_neg (fun hd => hp (of_decide_eq_true hd))]
      rw [ih, countP_n4AddTxn_other a b g t hp]

theorem foldl_replace_getLast? {α β : Type} (f : α → β) :
    ∀ (l : List α) (o : Option β),
      l.foldl (fun _ t => some (f t)) o = match l.getLast? with
        | none => o
        | some t => some (f t) := by
  intro l
  induction l with
  | nil => intro o; rfl
  | cons t ts ih =>
    intro o
    rw [List.foldl_cons, ih]
    cases hts : ts.getLast? with
    | none =>
      have : ts = [] := List.getLast?_eq_none_iff.mp hts
      subst this
      rfl
    | some x =>
      cases ts with
      | nil => simp at hts
      | cons y ys => rw [List.getLast?_cons_cons, hts]

theorem edges_foldl_n4AddUserNode :
    ∀ (us : List UserRow) (g : N4DiGraph), (us.foldl n4AddUserNode g).edges = g.edges := by
  intro us
  induction us with
  | nil => intro g; rfl
  | cons u us ih => intro g; rw [List.foldl_cons]; exact ih _

/-- The Neo4j in-memory mirror keeps a single directed edge per ordered
pair with completed transfers, but its attributes are those of the
*last* completed transfer only (no `total_amount`, no count). -/
theorem n4BuildT_edge_characterization (ds : Dataset) (a b : String) :
    ((n4BuildT ds).edgeAttr? a b = ((completedBetween ds a b).getLast?).map n4Attr)
    ∧ (completedBetween ds a b ≠ [] →
        (n4BuildT ds).edges.countP (fun e => e.1 = a ∧ e.2.1 = b) = 1) := by
  have hinit : (ds.users.foldl n4AddUserNode (N4DiGraph.mk [] [])).edges = [] :=
    edges_foldl_n4AddUserNode ds.users _
  constructor
  · unfold n4BuildT
    rw [edgeAttr?_foldl_n4AddTxn]
    have h0 : (ds.users.foldl n4AddUserNode (N4DiGraph.mk [] [])).edgeAttr? a b = none := by
      unfold N4DiGraph.edgeAttr?
      rw [hinit]
      rfl
    rw [h0, foldl_replace_getLast?]
    unfold completedBetween
    cases (ds.transactions.filter
        (fun t => t.status = "completed" ∧ t.sender_id = a ∧ t.receiver_id = b)).getLast? <;> rfl
  · intro hne
    unfold completedBetween at hne
    unfold n4BuildT
    rw [countP_foldl_n4AddTxn]
    rw [if_neg hne, hinit]
    rfl

/-! ## Soundness of the simple-path enumeration (`C5`) -/

theorem mem_outNbrs_hasEdge (g : NXDiGraph) (c n : String) (h : n ∈ g.outNbrs c) :
    g.hasEdge c n = true := by
  unfold NXDiGraph.outNbrs at h
  unfold NXDiGraph.hasEdge
  rw [List.any_eq_true]
  rcases List.mem_map.mp h with ⟨e, he, rfl⟩
  rcases List.mem_filter.mp he with ⟨hmem, hkey⟩
  exact ⟨e, hmem, by simp [of_decide_eq_true hkey]⟩

theorem extendPaths_sound (g : NXDiGraph) (targets : List String) :
    ∀ (fuel : Nat) (visited : List String) (cur : String) (q : List String),
      q ∈ extendPaths g targets fuel visited cur →
      q ≠ [] ∧ q.length ≤ fuel ∧ (∀ x ∈ q, x ∉ visited) ∧ q.Nodup ∧
      (∃ t, q.getLast? = some t ∧ t ∈ targets) ∧
      List.Chain' (fun x y => g.hasEdge x y = true) (cur :: q) := by
  intro fuel
  induction fuel with
  | zero => intro visited cur q hq; simp [extendPaths] at hq
  | succ fuel ih =>
    intro visited cur q hq
    unfold extendPaths at hq
    rcases List.mem_flatMap.mp hq with ⟨n, hn, hq⟩
    rcases List.mem_filter.mp hn with ⟨hnbr, hnv⟩
    have hnv' : n ∉ visited := by simpa using hnv
    have hedge : g.hasEdge cur n = true := mem_outNbrs_hasEdge g cur n hnbr
    rcases List.mem_append.mp hq with hq | hq
    · by_cases ht : n ∈ targets
      · rw [if_pos ht] at hq
        simp only [List.mem_singleton] at hq
        subst hq
        refine ⟨by simp, by simp, ?_, by simp, ⟨n, by simp, ht⟩, ?_⟩
        · intro x hx
          rw [List.mem_singleton] at hx
          subst hx
          exact hnv'
        · exact List.chain'_pair.mpr hedge
      · rw [if_neg ht] at hq
        simp at hq
    · rcases List.mem_map.mp hq with ⟨q', hq', rfl⟩
      obtain ⟨hne, hlen, hvis, hnd, ⟨t, hlast, htmem⟩, hchain⟩ :=
        ih (n :: visited) n q' hq'
      have hnq' : n ∉ q' := fun hmem => (hvis n hmem) (List.mem_cons_self n visited)
      refine ⟨by simp, ?_, ?_, ?_, ?_, ?_⟩
      · simpa using Nat.succ_le_succ hlen
      · intro x hx
        rcases List.mem_cons.mp hx with rfl | hx
        · exact hnv'
        · exact fun hv => (hvis x hx) (List.mem_cons_of_mem n hv)
      · exact List.nodup_cons.mpr ⟨hnq', hnd⟩
      · refine ⟨t, ?_, htmem⟩
        cases q' with
        | nil => exact absurd rfl hne
        | cons y ys => rw [List.getLast?_cons_cons]; exact hlast
      · cases q' with
        | nil => exact absurd rfl hne
        | cons y ys =>
          rw [List.chain'_cons]
          exact ⟨hedge, hchain⟩

/-- Soundness of `get_transaction_paths`: when the target is a node of
the transfer network, every returned path is a simple directed path
from source to target of at most `max_depth` edges. -/
theorem getTransactionPaths_sound (g : NXDiGraph) (a b : String) (k : Nat)
    (hb : b ∈ g.nodeIds) :
    ∀ p ∈ getTransactionPaths g a b k,
      p.head? = some a ∧ p.getLast? = some b ∧ p.Nodup ∧
      List.Chain' (fun x y => g.hasEdge x y = true) p ∧ p.length ≤ k + 1 := by
  intro p hp
  unfold getTransactionPaths allSimplePaths at hp
  by_cases ha : a ∈ g.nodeIds
  · rw [if_pos ha] at hp
    rw [if_pos hb] at hp
    simp only [Option.getD_some] at hp
    rcases List.mem_append.mp hp with hp | hp
    · by_cases hab : a ∈ [b]
      · rw [if_pos hab] at hp
        simp only [List.mem_singleton] at hp
        subst hp
        have : a = b := by simpa using hab
        subst this
        exact ⟨rfl, rfl, by simp, by simp, by simp⟩
      · rw [if_neg hab] at hp
        simp at hp
    · by_cases hk : 0 < k
      · rw [if_pos hk] at hp
        rcases List.mem_map.mp hp with ⟨q, hq, rfl⟩
        obtain ⟨hne, hlen, hvis, hnd, ⟨t, hlast, htmem⟩, hchain⟩ :=
          extendPaths_sound g [b] k [a] a q hq
        have htb : t = b := by simpa using htmem
        subst htb
        have haq : a ∉ q := fun hmem => (hvis a hmem) (by simp)
        refine ⟨rfl, ?_, List.nodup_cons.mpr ⟨haq, hnd⟩, hchain, by simpa using hlen⟩
        cases q with
        | nil => exact absurd rfl hne
        | cons y ys => rw [List.getLast?_cons_cons]; exact hlast
      · rw [if_neg hk] at hp
        simp at hp
  · rw [if_neg ha] at hp
    simp at hp

/-! ## Node-key lemmas for the relational graph -/

namespace NXGraph

theorem map_fst_upsertNode (n : String) (f : NodeAttr → NodeAttr) :
    ∀ l : List (String × NodeAttr),
      (upsertNode n f l).map Prod.fst =
        if n ∈ l.map Prod.fst then l.map Prod.fst else l.map Prod.fst ++ [n] := by
  intro l
  induction l with
  | nil => simp [upsertNode]
  | cons p ps ih =>
    by_cases h : p.1 = n
    · simp [upsertNode, h]
    · simp only [upsertNode, if_neg h, List.map_cons, ih]
      have hne : ¬n = p.1 := fun he => h he.symm
      by_cases hm : n ∈ ps.map Prod.fst
      · simp [hm, hne]
      · simp [hm, hne]

theorem nodeIds_addNode (g : NXGraph) (n : String) (f : NodeAttr → NodeAttr) :
    (g.addNode n f).nodeIds = if n ∈ g.nodeIds then g.nodeIds else g.nodeIds ++ [n] :=
  map_fst_upsertNode n f g.nodes

theorem mem_nodeIds_addNode (g : NXGraph) (n m : String) (f : NodeAttr → NodeAttr) :
    m ∈ (g.addNode n f).nodeIds ↔ m ∈ g.nodeIds ∨ m = n := by
  rw [nodeIds_addNode]
  by_cases h : n ∈ g.nodeIds
  · rw [if_pos h]
    constructor
    · exact Or.inl
    · rintro (hm | rfl)
      · exact hm
      · exact h
  · rw [if_neg h]
    simp

theorem nodupKeys_addNode (g : NXGraph) (n : String) (f : NodeAttr → NodeAttr)
    (h : (g.nodes.map Prod.fst).Nodup) : ((g.addNode n f).nodes.map Prod.fst).Nodup := by
  show ((upsertNode n f g.nodes).map Prod.fst).Nodup
  rw [map_fst_upsertNode]
  by_cases hm : n ∈ g.nodes.map Prod.fst
  · rwa [if_pos hm]
  · rw [if_neg hm]
    rw [List.nodup_append]
    exact ⟨h, List.nodup_singleton n, by simpa using hm⟩

theorem nodes_addEdge (g : NXGraph) (a b : String) (f : GEdgeAttr → GEdgeAttr) :
    (g.addEdge a b f).nodes = ((g.addNode a id).addNode b id).nodes := rfl

theorem nodupKeys_addEdge (g : NXGraph) (a b : String) (f : GEdgeAttr → GEdgeAttr)
    (h : (g.nodes.map Prod.fst).Nodup) : ((g.addEdge a b f).nodes.map Prod.fst).Nodup := by
  rw [nodes_addEdge]
  exact nodupKeys_addNode _ b id (nodupKeys_addNode g a id h)

end NXGraph

theorem nodupKeys_foldl {α : Type} (step : NXGraph → α → NXGraph)
    (hstep : ∀ g x, (g.nodes.map Prod.fst).Nodup → ((step g x).nodes.map Prod.fst).Nodup) :
    ∀ (l : List α) (g : NXGraph), (g.nodes.map Prod.fst).Nodup →
      ((l.foldl step g).nodes.map Prod.fst).Nodup := by
  intro l
  induction l with
  | nil => intro g h; exact h
  | cons x xs ih => intro g h; rw [List.foldl_cons]; exact ih _ (hstep g x h)

/-- The nodes of the built relational graph have pairwise-distinct ids
(NetworkX node dictionaries are keyed by id). -/
theorem nodupKeys_buildG (ds : Dataset) : ((buildG ds).nodes.map Prod.fst).Nodup := by
  unfold buildG
  apply nodupKeys_foldl addTxnEdgeG
  · intro g t h
    unfold addTxnEdgeG
    split
    · exact NXGraph.nodupKeys_addEdge _ _ _ _ h
    · exact h
  apply nodupKeys_foldl addLinkEdgeG
  · intro g l h
    exact NXGraph.nodupKeys_addEdge _ _ _ _ h
  apply nodupKeys_foldl addDeviceNodeG
  · intro g d h
    exact NXGraph.nodupKeys_addNode _ _ _ h
  apply nodupKeys_foldl addUserNodeG
  · intro g u h
    exact NXGraph.nodupKeys_addNode _ _ _ h
  simp

/-! ## `get_user_subgraph` (`C6`) -/

/-- An absent user id yields the empty graph (no `NotFoundError` is
raised anywhere in `FraudGraph`). -/
theorem getUserSubgraph_absent (g : NXGraph) (u : String) (depth : Nat)
    (h : u ∉ g.nodeIds) : getUserSubgraph g u depth = ⟨[], []⟩ := by
  unfold getUserSubgraph
  rw [if_neg h]

theorem filter_singleton_key (u : String) :
    ∀ l : List (String × NodeAttr), (l.map Prod.fst).Nodup → u ∈ l.map Prod.fst →
      (l.filter (fun p => p.1 ∈ [u])).map Prod.fst = [u] := by
  intro l
  induction l with
  | nil => intro _ h; simp at h
  | cons p ps ih =>
    intro hnd hmem
    rw [List.map_cons] at hnd
    have hnd' := List.nodup_cons.mp hnd
    by_cases h : p.1 = u
    · have hpin : decide (p.1 ∈ [u]) = true := decide_eq_true (by simp [h])
      rw [List.filter_cons, if_pos hpin]
      have hnone : ps.filter (fun q => q.1 ∈ [u]) = [] := by
        rw [List.filter_eq_nil_iff]
        intro q hq hdec
        have : q.1 ∈ [u] := of_decide_eq_true hdec
        have hqu : q.1 = u := by simpa using this
        have : q.1 ∈ ps.map Prod.fst := List.mem_map_of_mem Prod.fst hq
        rw [hqu, ← h] at this
        exact hnd'.1 this
      rw [hnone]
      simp [h]
    · have hpin : decide (p.1 ∈ [u]) = false := decide_eq_false (by simp [h])
      rw [List.filter_cons, if_neg (by simp [h])]
      apply ih hnd'.2
      rcases List.mem_map.mp hmem with ⟨q, hq, hqu⟩
      rcases List.mem_cons.mp hq with rfl | hq
      · exact absurd hqu h
      · exact hqu ▸ List.mem_map_of_mem Prod.fst hq

/-- Depth 0 on a present user returns exactly that node. -/
theorem getUserSubgraph_depth_zero (g : NXGraph) (u : String)
    (hnd : (g.nodes.map Prod.fst).Nodup) (h : u ∈ g.nodeIds) :
    (getUserSubgraph g u 0).nodes.map Prod.fst = [u] := by
  unfold getUserSubgraph
  rw [if_pos h]
  show ((g.nodes.filter (fun p => p.1 ∈ reachSet g u 0)).map Prod.fst) = [u]
  unfold reachSet
  exact filter_singleton_key u g.nodes hnd h

/-! ## Shape lemmas for the detector outputs -/

theorem mem_computeRiskScores (g : NXGraph) (cdf : List CentralityRow)
    (shared : List ResourceRec) (txns? : Option (List TxnRow)) (r : RiskRow) :
    r ∈ computeRiskScores g cdf shared txns? ↔
      ∃ c ∈ cdf, r = mkRiskRow g ((cdf.map (·.pagerank)).foldl max 0)
        ((cdf.map (·.betweenness)).foldl max 0) shared txns? c := by
  unfold computeRiskScores
  rw [List.mem_mergeSort]
  constructor
  · intro h
    rcases List.mem_map.mp h with ⟨c, hc, rfl⟩
    exact ⟨c, hc, rfl⟩
  · rintro ⟨c, hc, rfl⟩
    exact List.mem_map_of_mem _ hc

theorem length_computeRiskScores (g : NXGraph) (cdf : List CentralityRow)
    (shared : List ResourceRec) (txns? : Option (List TxnRow)) :
    (computeRiskScores g cdf shared txns?).length = cdf.length := by
  unfold computeRiskScores
  rw [List.length_mergeSort, List.length_map]

theorem mem_getSharedDevices (g : NXGraph) (d : String) (us : List String) :
    (d, us) ∈ getSharedDevices g ↔
      ∃ attr, (d, attr) ∈ g.nodes ∧ attr.node_type = some "device" ∧
        us = (g.nbrs d).filter (fun m => g.nodeType? m = some "user") ∧ 1 < us.length := by
  unfold getSharedDevices
  rw [List.mem_filterMap]
  constructor
  · rintro ⟨p, hp, hsome⟩
    by_cases ht : p.2.node_type = some "device"
    · rw [if_pos ht] at hsome
      by_cases hl : 1 < ((g.nbrs p.1).filter (fun m => g.nodeType? m = some "user")).length
      · rw [if_pos hl] at hsome
        rw [Option.some.injEq, Prod.mk.injEq] at hsome
        obtain ⟨hd, hus⟩ := hsome
        subst hd
        refine ⟨p.2, hp, ht, hus.symm, ?_⟩
        rw [hus] at hl
        exact hl
      · rw [if_neg hl] at hsome
        simp at hsome
    · rw [if_neg ht] at hsome
      simp at hsome
  · rintro ⟨attr, hmem, ht, rfl, hl⟩
    refine ⟨(d, attr), hmem, ?_⟩
    rw [if_pos ht, if_pos hl]

theorem mem_detectSharedResources (g : NXGraph) (rec : ResourceRec) :
    rec ∈ detectSharedResources g ↔
      ∃ du ∈ getSharedDevices g, rec = mkResourceRec g du := by
  unfold detectSharedResources
  rw [List.mem_mergeSort]
  constructor
  · intro h
    rcases List.mem_map.mp h with ⟨du, hdu, rfl⟩
    exact ⟨du, hdu, rfl⟩
  · rintro ⟨du, hdu, rfl⟩
    exact List.mem_map_of_mem _ hdu

theorem detectSharedResources_mem_props (g : NXGraph) (rec : ResourceRec)
    (h : rec ∈ detectSharedResources g) :
    2 ≤ rec.shared_by_count ∧ rec.shared_by_count = rec.shared_by.length ∧
    rec.fraudster_count ≤ rec.shared_by_count ∧
    rec.risk_score = (rec.fraudster_count : ℚ) / (rec.shared_by_count : ℚ) ∧
    0 ≤ rec.risk_score ∧ rec.risk_score ≤ 1 := by
  rcases (mem_detectSharedResources g rec).mp h with ⟨⟨d, us⟩, hdu, rfl⟩
  rcases (mem_getSharedDevices g d us).mp hdu with ⟨attr, _, _, _, hl⟩
  have hne : us ≠ [] := by
    intro hnil
    rw [hnil] at hl
    simp at hl
  have hcount : (us.filter (fun u => ((g.nodeAttr? u).bind (·.is_fraudster)).getD false)).length
      ≤ us.length := List.length_filter_le _ us
  have hpos : (0 : ℚ) < (us.length : ℚ) := by
    have : 0 < us.length := by omega
    exact_mod_cast this
  refine ⟨by simpa [mkResourceRec] using hl, by simp [mkResourceRec], ?_, ?_, ?_, ?_⟩
  · simpa [mkResourceRec] using hcount
  · simp [mkResourceRec, hne]
  · simp only [mkResourceRec, if_neg hne]
    positivity
  · simp only [mkResourceRec, if_neg hne]
    rw [div_le_one hpos]
    exact_mod_cast hcount

theorem detectSharedResources_sorted (g : NXGraph) :
    (detectSharedResources g).Pairwise (fun x y => y.risk_score ≤ x.risk_score) := by
  have hs := @List.sorted_mergeSort ResourceRec
    (fun a b : ResourceRec => decide (b.risk_score ≤ a.risk_score))
    (fun a b c hab hbc =>
      decide_eq_true (le_trans (of_decide_eq_true hbc) (of_decide_eq_true hab)))
    (fun a b => by rcases le_total b.risk_score a.risk_score with h | h <;> simp [h])
    ((getSharedDevices g).map (mkResourceRec g))
  exact hs.imp (fun hab => of_decide_eq_true hab)

/-! ## Node-attribute lookup through upserts -/

theorem find?_upsertNodeG (n : String) (f : NodeAttr → NodeAttr) (m : String) :
    ∀ l : List (String × NodeAttr),
      ((NXGraph.upsertNode n f l).find? (fun p => p.1 = m)).map Prod.snd =
        if m = n then some (f (((l.find? (fun p => p.1 = n)).map Prod.snd).getD {}))
        else (l.find? (fun p => p.1 = m)).map Prod.snd := by
  intro l
  induction l with
  | nil =>
    by_cases hmn : m = n
    · have h1 : decide (n = m) = true := decide_eq_true hmn.symm
      simp only [NXGraph.upsertNode, if_pos hmn]
      rw [List.find?_cons]
      simp [h1]
    · have h1 : decide (n = m) = false := decide_eq_false (fun h => hmn h.symm)
      simp only [NXGraph.upsertNode, if_neg hmn]
      rw [List.find?_cons]
      simp [h1]
  | cons p ps ih =>
    by_cases hpn : p.1 = n
    · by_cases hmn : m = n
      · have h1 : decide (p.1 = m) = true := decide_eq_true (by rw [hpn, hmn])
        have h2 : decide (p.1 = n) = true := decide_eq_true hpn
        simp only [NXGraph.upsertNode, if_pos hpn, if_pos hmn]
        rw [List.find?_cons, List.find?_cons]
        simp [h1, h2]
      · have hne : ¬(p.1 = m) := fun h => hmn (by rw [← h, hpn])
        have h1 : decide (p.1 = m) = false := decide_eq_false hne
        simp only [NXGraph.upsertNode, if_pos hpn, if_neg hmn]
        rw [List.find?_cons, List.find?_cons]
        simp [h1]
    · by_cases hpm : p.1 = m
      · have hmn : ¬(m = n) := fun h => hpn (by rw [hpm, h])
        have h1 : decide (p.1 = m) = true := decide_eq_true hpm
        simp only [NXGraph.upsertNode, if_neg hpn, if_neg hmn]
        rw [List.find?_cons, List.find?_cons]
        simp [h1]
      · have h1 : decide (p.1 = m) = false := decide_eq_false hpm
        simp only [NXGraph.upsertNode, if_neg hpn]
        rw [List.find?_cons]
        by_cases hmn : m = n
        · have h2 : decide (p.1 = n) = false := decide_eq_false (fun h => hpm (by rw [h, ← hmn]))
          rw [if_pos hmn] at ih ⊢
          rw [List.find?_cons]
          simp only [h1, h2]
          exact ih
        · rw [if_neg hmn] at ih ⊢
          rw [List.find?_cons]
          simp only [h1]
          exact ih

theorem find?_upsertNodeT (n : String) (f : DiNodeAttr → DiNodeAttr) (m : String) :
    ∀ l : List (String × DiNodeAttr),
      ((NXDiGraph.upsertNode n f l).find? (fun p => p.1 = m)).map Prod.snd =
        if m = n then some (f (((l.find? (fun p => p.1 = n)).map Prod.snd).getD {}))
        else (l.find? (fun p => p.1 = m)).map Prod.snd := by
  intro l
  induction l with
  | nil =>
    by_cases hmn : m = n
    · have h1 : decide (n = m) = true := decide_eq_true hmn.symm
      simp only [NXDiGraph.upsertNode, if_pos hmn]
      rw [List.find?_cons]
      simp [h1]
    · have h1 : decide (n = m) = false := decide_eq_false (fun h => hmn h.symm)
      simp only [NXDiGraph.upsertNode, if_neg hmn]
      rw [List.find?_cons]
      simp [h1]
  | cons p ps ih =>
    by_cases hpn : p.1 = n
    · by_cases hmn : m = n
      · have h1 : decide (p.1 = m) = true := decide_eq_true (by rw [hpn, hmn])
        have h2 : decide (p.1 = n) = true := decide_eq_true hpn
        simp only [NXDiGraph.upsertNode, if_pos hpn, if_pos hmn]
        rw [List.find?_cons, List.find?_cons]
        simp [h1, h2]
      · have hne : ¬(p.1 = m) := fun h => hmn (by rw [← h, hpn])
        have h1 : decide (p.1 = m) = false := decide_eq_false hne
        simp only [NXDiGraph.upsertNode, if_pos hpn, if_neg hmn]
        rw [List.find?_cons, List.find?_cons]
        simp [h1]
    · by_cases hpm : p.1 = m
      · have hmn : ¬(m = n) := fun h => hpn (by rw [hpm, h])
        have h1 : decide (p.1 = m) = true := decide_eq_true hpm
        simp only [NXDiGraph.upsertNode, if_neg hpn, if_neg hmn]
        rw [List.find?_cons, List.find?_cons]
        simp [h1]
      · have h1 : decide (p.1 = m) = false := decide_eq_false hpm
        simp only [NXDiGraph.upsertNode, if_neg hpn]
        rw [List.find?_cons]
        by_cases hmn : m = n
        · have h2 : decide (p.1 = n) = false := decide_eq_false (fun h => hpm (by rw [h, ← hmn]))
          rw [if_pos hmn] at ih ⊢
          rw [List.find?_cons]
          simp only [h1, h2]
          exact ih
        · rw [if_neg hmn] at ih ⊢
          rw [List.find?_cons]
          simp only [h1]
          exact ih

theorem nodeAttrG_addNode (g : NXGraph) (n : String) (f : NodeAttr → NodeAttr) (m : String) :
    (g.addNode n f).nodeAttr? m =
      if m = n then some (f ((g.nodeAttr? n).getD {})) else g.nodeAttr? m := by
  unfold NXGraph.addNode NXGraph.nodeAttr?
  exact find?_upsertNodeG n f m g.nodes

theorem nodeAttrT_addNode (g : NXDiGraph) (n : String) (f : DiNodeAttr → DiNodeAttr) (m : String) :
    (g.addNode n f).nodeAttr? m =
      if m = n then some (f ((g.nodeAttr? n).getD {})) else g.nodeAttr? m := by
  unfold NXDiGraph.addNode NXDiGraph.nodeAttr?
  exact find?_upsertNodeT n f m g.nodes



/-! ## Attribute provenance through the builds -/

theorem nodeAttrT_ensure (g : NXDiGraph) (n m : String) :
    ((g.addNode n id).nodeAttr? m = g.nodeAttr? m) ∨
      (g.nodeAttr? m = none ∧ (g.addNode n id).nodeAttr? m = some {}) := by
  rw [nodeAttrT_addNode]
  by_cases hmn : m = n
  · rw [if_pos hmn]
    subst hmn
    cases hX : g.nodeAttr? m with
    | some v => exact Or.inl rfl
    | none => exact Or.inr ⟨rfl, rfl⟩
  · rw [if_neg hmn]
    exact Or.inl rfl

theorem nodeAttrG_ensure (g : NXGraph) (n m : String) :
    ((g.addNode n id).nodeAttr? m = g.nodeAttr? m) ∨
      (g.nodeAttr? m = none ∧ (g.addNode n id).nodeAttr? m = some {}) := by
  rw [nodeAttrG_addNode]
  by_cases hmn : m = n
  · rw [if_pos hmn]
    subst hmn
    cases hX : g.nodeAttr? m with
    | some v => exact Or.inl rfl
    | none => exact Or.inr ⟨rfl, rfl⟩
  · rw [if_neg hmn]
    exact Or.inl rfl

theorem nodeAttrT_addEdge (g : NXDiGraph) (a b : String)
    (f : Option TxnEdgeAttr → TxnEdgeAttr) (m : String) :
    ((g.addEdge a b f).nodeAttr? m = g.nodeAttr? m) ∨
      (g.nodeAttr? m = none ∧ (g.addEdge a b f).nodeAttr? m = some {}) := by
  have hEq : (g.addEdge a b f).nodeAttr? m = ((g.addNode a id).addNode b id).nodeAttr? m := rfl
  rw [hEq]
  rcases nodeAttrT_ensure (g.addNode a id) b m with h2 | ⟨h2n, h2s⟩
  · rw [h2]
    exact nodeAttrT_ensure g a m
  · rcases nodeAttrT_ensure g a m with h1 | ⟨h1n, h1s⟩
    · rw [h1] at h2n
      exact Or.inr ⟨h2n, h2s⟩
    · exact Or.inr ⟨h1n, h2s⟩

theorem nodeAttrG_addEdge (g : NXGraph) (a b : String)
    (f : GEdgeAttr → GEdgeAttr) (m : String) :
    ((g.addEdge a b f).nodeAttr? m = g.nodeAttr? m) ∨
      (g.nodeAttr? m = none ∧ (g.addEdge a b f).nodeAttr? m = some {}) := by
  have hEq : (g.addEdge a b f).nodeAttr? m = ((g.addNode a id).addNode b id).nodeAttr? m := rfl
  rw [hEq]
  rcases nodeAttrG_ensure (g.addNode a id) b m with h2 | ⟨h2n, h2s⟩
  · rw [h2]
    exact nodeAttrG_ensure g a m
  · rcases nodeAttrG_ensure g a m with h1 | ⟨h1n, h1s⟩
    · rw [h1] at h2n
      exact Or.inr ⟨h2n, h2s⟩
    · exact Or.inr ⟨h1n, h2s⟩

theorem nodeAttrT_addTxnEdgeT (g : NXDiGraph) (t : TxnRow) (m : String) :
    ((addTxnEdgeT g t).nodeAttr? m = g.nodeAttr? m) ∨
      (g.nodeAttr? m = none ∧ (addTxnEdgeT g t).nodeAttr? m = some {}) := by
  unfold addTxnEdgeT
  split
  · exact nodeAttrT_addEdge g t.sender_id t.receiver_id (txnStep t) m
  · exact Or.inl rfl

/-- After the transaction fold, every node attribute either predates
the fold or the node was absent before it and now carries the bare
default attributes (no `is_fraudster` key). -/
theorem nodeAttrT_foldl_txns (m : String) :
    ∀ (ts : List TxnRow) (g : NXDiGraph),
      ((ts.foldl addTxnEdgeT g).nodeAttr? m = g.nodeAttr? m) ∨
        (g.nodeAttr? m = none ∧ (ts.foldl addTxnEdgeT g).nodeAttr? m = some {}) := by
  intro ts
  induction ts with
  | nil => intro g; exact Or.inl rfl
  | cons t ts ih =>
    intro g
    rw [List.foldl_cons]
    rcases ih (addTxnEdgeT g t) with h | ⟨hn, hs⟩
    · rw [h]
      exact nodeAttrT_addTxnEdgeT g t m
    · rcases nodeAttrT_addTxnEdgeT g t m with h1 | ⟨h1n, _⟩
      · rw [h1] at hn
        exact Or.inr ⟨hn, hs⟩
      · exact Or.inr ⟨h1n, hs⟩

/-- `is_fraudster` is only ever set by the user-node loop, so any node
carrying it is a user id from the input table. -/
theorem fraud_userIds_buildT (ds : Dataset) (n : String) (attr : DiNodeAttr)
    (hattr : (buildT ds).nodeAttr? n = some attr) (hf : attr.is_fraudster.isSome) :
    n ∈ ds.userIds := by
  have base : ∀ (us : List UserRow) (g : NXDiGraph),
      (∀ a, g.nodeAttr? n = some a → a.is_fraudster.isSome → n ∈ ds.userIds) →
      (∀ u ∈ us, u.user_id ∈ ds.userIds) →
      ∀ a, (us.foldl addUserNodeT g).nodeAttr? n = some a → a.is_fraudster.isSome →
        n ∈ ds.userIds := by
    intro us
    induction us with
    | nil => intro g hg _ a ha hf; exact hg a ha hf
    | cons u us ih =>
      intro g hg hus a ha hf
      rw [List.foldl_cons] at ha
      refine ih (addUserNodeT g u) ?_ (fun v hv => hus v (List.mem_cons_of_mem u hv)) a ha hf
      intro a' ha' hf'
      unfold addUserNodeT at ha'
      rw [nodeAttrT_addNode] at ha'
      by_cases hn : n = u.user_id
      · exact hn ▸ hus u (List.mem_cons_self u us)
      · rw [if_neg hn] at ha'
        exact hg a' ha' hf'
  unfold buildT at hattr
  rcases nodeAttrT_foldl_txns n ds.transactions
      (ds.users.foldl addUserNodeT (NXDiGraph.mk [] [])) with h | ⟨_, h⟩
  · rw [h] at hattr
    refine base ds.users (NXDiGraph.mk [] []) ?_ ?_ attr hattr hf
    · intro a ha
      exact absurd ha (by unfold NXDiGraph.nodeAttr?; simp)
    · intro u hu
      exact List.mem_map_of_mem (·.user_id) hu
  · rw [h, Option.some.injEq] at hattr
    rw [← hattr] at hf
    simp at hf

/-- Conversely, every user row of the input is present in the transfer
network with its `is_fraudster` attribute set. -/
theorem user_isSome_buildT (ds : Dataset) (u : UserRow) (hu : u ∈ ds.users) :
    ∃ attr, (buildT ds).nodeAttr? u.user_id = some attr ∧ attr.is_fraudster.isSome := by
  have keep : ∀ (g : NXDiGraph) (v : UserRow),
      (∃ a, g.nodeAttr? u.user_id = some a ∧ a.is_fraudster.isSome) →
      ∃ a, (addUserNodeT g v).nodeAttr? u.user_id = some a ∧ a.is_fraudster.isSome := by
    intro g v hq
    obtain ⟨a, ha, hf⟩ := hq
    unfold addUserNodeT
    rw [nodeAttrT_addNode]
    by_cases hn : u.user_id = v.user_id
    · rw [if_pos hn]
      exact ⟨_, rfl, rfl⟩
    · rw [if_neg hn]
      exact ⟨a, ha, hf⟩
  have establish : ∀ (us : List UserRow) (g : NXDiGraph),
      (u ∈ us ∨ ∃ a, g.nodeAttr? u.user_id = some a ∧ a.is_fraudster.isSome) →
      ∃ a, (us.foldl addUserNodeT g).nodeAttr? u.user_id = some a ∧ a.is_fraudster.isSome := by
    intro us
    induction us with
    | nil =>
      intro g h
      rcases h with h | h
      · simp at h
      · exact h
    | cons v vs ih =>
      intro g h
      rw [List.foldl_cons]
      apply ih (addUserNodeT g v)
      rcases h with h | h
      · rcases List.mem_cons.mp h with rfl | hmem
        · refine Or.inr ?_
          unfold addUserNodeT
          rw [nodeAttrT_addNode, if_pos rfl]
          exact ⟨_, rfl, rfl⟩
        · exact Or.inl hmem
      · exact Or.inr (keep g v h)
  have husers := establish ds.users (NXDiGraph.mk [] []) (Or.inl hu)
  obtain ⟨a, ha, hf⟩ := husers
  unfold buildT
  rcases nodeAttrT_foldl_txns u.user_id ds.transactions
      (ds.users.foldl addUserNodeT (NXDiGraph.mk [] [])) with h | ⟨hn, _⟩
  · rw [h]
    exact ⟨a, ha, hf⟩
  · rw [ha] at hn
    exact absurd hn (by simp)

/-- Every `account_age_days` value stored in the relational graph comes
from some user row. -/
def AgeFromUsers (ds : Dataset) (g : NXGraph) : Prop :=
  ∀ n attr a, g.nodeAttr? n = some attr → attr.account_age_days = some a →
    ∃ u ∈ ds.users, u.account_age_days = a

theorem ageFromUsers_addEdge (ds : Dataset) (g : NXGraph) (x y : String)
    (f : GEdgeAttr → GEdgeAttr) (h : AgeFromUsers ds g) :
    AgeFromUsers ds (g.addEdge x y f) := by
  intro n attr a hattr ha
  rcases nodeAttrG_addEdge g x y f n with heq | ⟨_, heq⟩
  · rw [heq] at hattr
    exact h n attr a hattr ha
  · rw [heq, Option.some.injEq] at hattr
    rw [← hattr] at ha
    exact absurd ha (by simp)

theorem ageFromUsers_addUserNodeG (ds : Dataset) (g : NXGraph) (u : UserRow)
    (hu : u ∈ ds.users) (h : AgeFromUsers ds g) :
    AgeFromUsers ds (addUserNodeG g u) := by
  intro n attr a hattr ha
  unfold addUserNodeG at hattr
  rw [nodeAttrG_addNode] at hattr
  by_cases hn : n = u.user_id
  · rw [if_pos hn, Option.some.injEq] at hattr
    rw [← hattr] at ha
    simp only [Option.some.injEq] at ha
    exact ⟨u, hu, ha⟩
  · rw [if_neg hn] at hattr
    exact h n attr a hattr ha

theorem ageFromUsers_addDeviceNodeG (ds : Dataset) (g : NXGraph) (d : DeviceRow)
    (h : AgeFromUsers ds g) :
    AgeFromUsers ds (addDeviceNodeG g d) := by
  intro n attr a hattr ha
  unfold addDeviceNodeG at hattr
  rw [nodeAttrG_addNode] at hattr
  by_cases hn : n = d.device_id
  · rw [if_pos hn, Option.some.injEq] at hattr
    rw [← hattr] at ha
    cases hX : g.nodeAttr? d.device_id with
    | some v =>
      rw [hX] at ha
      exact h d.device_id v a hX ha
    | none =>
      rw [hX] at ha
      exact absurd ha (by simp)
  · rw [if_neg hn] at hattr
    exact h n attr a hattr ha

theorem ageFromUsers_buildG (ds : Dataset) : AgeFromUsers ds (buildG ds) := by
  have husers : ∀ (us : List UserRow) (g : NXGraph), (∀ u ∈ us, u ∈ ds.users) →
      AgeFromUsers ds g → AgeFromUsers ds (us.foldl addUserNodeG g) := by
    intro us
    induction us with
    | nil => intro g _ h; exact h
    | cons u us ih =>
      intro g hus h
      rw [List.foldl_cons]
      exact ih _ (fun v hv => hus v (List.mem_cons_of_mem u hv))
        (ageFromUsers_addUserNodeG ds g u (hus u (List.mem_cons_self u us)) h)
  have hdevices : ∀ (devs : List DeviceRow) (g : NXGraph),
      AgeFromUsers ds g → AgeFromUsers ds (devs.foldl addDeviceNodeG g) := by
    intro devs
    induction devs with
    | nil => intro g h; exact h
    | cons d devs ih =>
      intro g h
      rw [List.foldl_cons]
      exact ih _ (ageFromUsers_addDeviceNodeG ds g d h)
  have hlinks : ∀ (ls : List LinkRow) (g : NXGraph),
      AgeFromUsers ds g → AgeFromUsers ds (ls.foldl addLinkEdgeG g) := by
    intro ls
    induction ls with
    | nil => intro g h; exact h
    | cons l ls ih =>
      intro g h
      rw [List.foldl_cons]
      exact ih _ (ageFromUsers_addEdge ds g _ _ _ h)
  have htxns : ∀ (ts : List TxnRow) (g : NXGraph),
      AgeFromUsers ds g → AgeFromUsers ds (ts.foldl addTxnEdgeG g) := by
    intro ts
    induction ts with
    | nil => intro g h; exact h
    | cons t ts ih =>
      intro g h
      rw [List.foldl_cons]
      refine ih _ ?_
      unfold addTxnEdgeG
      split
      · exact ageFromUsers_addEdge ds g _ _ _ h
      · exact h
  have hempty : AgeFromUsers ds (NXGraph.mk [] []) := by
    intro n attr a hattr
    exact absurd hattr (by unfold NXGraph.nodeAttr?; simp)
  unfold buildG
  exact htxns _ _ (hlinks _ _ (hdevices _ _ (husers _ _ (fun u hu => hu) hempty)))

/-! ## PageRank bounds -/

theorem prStep_nonneg (g : NXDiGraph) (x : String → ℚ) (hx : ∀ v, 0 ≤ x v) (v : String) :
    0 ≤ prStep g x v := by
  unfold prStep
  have hdang : 0 ≤ ((g.nodeIds.filter (fun m => g.outDeg m = 0)).map x).sum :=
    List.sum_nonneg (by
      intro q hq
      rcases List.mem_map.mp hq with ⟨m, _, rfl⟩
      exact hx m)
  have hin : 0 ≤ ((g.inNbrs v).map (fun m => x m / (g.outDeg m : ℚ))).sum :=
    List.sum_nonneg (by
      intro q hq
      rcases List.mem_map.mp hq with ⟨m, _, rfl⟩
      exact div_nonneg (hx m) (by positivity))
  have hn : (0 : ℚ) ≤ (g.nodeIds.length : ℚ) := by positivity
  refine add_nonneg (mul_nonneg (by norm_num) (add_nonneg hin (div_nonneg hdang hn)))
    (div_nonneg (by norm_num) hn)

theorem prStep_lb (g : NXDiGraph) (x : String → ℚ) (hx : ∀ v, 0 ≤ x v) (v : String) :
    (3 / 20) / (g.nodeIds.length : ℚ) ≤ prStep g x v := by
  unfold prStep
  have hdang : 0 ≤ ((g.nodeIds.filter (fun m => g.outDeg m = 0)).map x).sum :=
    List.sum_nonneg (by
      intro q hq
      rcases List.mem_map.mp hq with ⟨m, _, rfl⟩
      exact hx m)
  have hin : 0 ≤ ((g.inNbrs v).map (fun m => x m / (g.outDeg m : ℚ))).sum :=
    List.sum_nonneg (by
      intro q hq
      rcases List.mem_map.mp hq with ⟨m, _, rfl⟩
      exact div_nonneg (hx m) (by positivity))
  have hn : (0 : ℚ) ≤ (g.nodeIds.length : ℚ) := by positivity
  exact le_add_of_nonneg_left
    (mul_nonneg (by norm_num) (add_nonneg hin (div_nonneg hdang hn)))

theorem prIter_lb (g : NXDiGraph) :
    ∀ (fuel : Nat) (x : String → ℚ), (∀ v, 0 ≤ x v) → 1 ≤ fuel →
      ∀ v, (3 / 20) / (g.nodeIds.length : ℚ) ≤ prIter g fuel x v := by
  intro fuel
  induction fuel with
  | zero => intro x _ h; omega
  | succ f ih =>
    intro x hx _ v
    show (3 / 20) / (g.nodeIds.length : ℚ) ≤
      (if prErr g x (prStep g x) < (g.nodeIds.length : ℚ) * (1 / 1000000) then prStep g x
       else prIter g f (prStep g x)) v
    split
    · exact prStep_lb g x hx v
    · cases f with
      | zero => exact prStep_lb g x hx v
      | succ f' => exact ih (prStep g x) (prStep_nonneg g x hx) (by omega) v

theorem nxPagerank_lb (g : NXDiGraph) (v : String) :
    (3 / 20) / (g.nodeIds.length : ℚ) ≤ nxPagerank g v := by
  unfold nxPagerank
  exact prIter_lb g 100 _ (fun w => by positivity) (by omega) v

theorem nxPagerank_nonneg (g : NXDiGraph) (v : String) : 0 ≤ nxPagerank g v :=
  le_trans (by positivity) (nxPagerank_lb g v)

theorem nxPagerank_pos (g : NXDiGraph) (hne : g.nodeIds ≠ []) (v : String) :
    0 < nxPagerank g v := by
  refine lt_of_lt_of_le ?_ (nxPagerank_lb g v)
  have : 0 < g.nodeIds.length := List.length_pos.mpr hne
  have hq : (0 : ℚ) < (g.nodeIds.length : ℚ) := by exact_mod_cast this
  positivity

/-! ## Betweenness bounds -/

theorem rawBetweenness_nonneg (g : NXDiGraph) (v : String) : 0 ≤ rawBetweenness g v := by
  unfold rawBetweenness
  refine List.sum_nonneg ?_
  intro q hq
  rcases List.mem_map.mp hq with ⟨st, _, rfl⟩
  split
  · positivity
  · exact le_refl 0

theorem nxBetweenness_nonneg (g : NXDiGraph) (v : String) : 0 ≤ nxBetweenness g v := by
  unfold nxBetweenness
  simp only []
  split
  · refine div_nonneg (rawBetweenness_nonneg g v) ?_
    rename_i hn
    have h1 : (2 : ℚ) < (g.nodeIds.length : ℚ) := by exact_mod_cast hn
    nlinarith
  · exact rawBetweenness_nonneg g v

theorem stSimplePaths_chain (g : NXDiGraph) (s t : String) (p : List String)
    (hp : p ∈ stSimplePaths g s t) :
    List.Chain' (fun x y => g.hasEdge x y = true) p := by
  unfold stSimplePaths at hp
  by_cases hst : s = t
  · rw [if_pos hst] at hp
    simp at hp
  · rw [if_neg hst] at hp
    rcases List.mem_map.mp hp with ⟨q, hq, rfl⟩
    exact (extendPaths_sound g [t] g.nodeIds.length [s] s q hq).2.2.2.2.2

theorem chain_tail_edge {R : String → String → Prop} :
    ∀ (p : List String), List.Chain' R p → ∀ v ∈ p.drop 1, ∃ x, R x v := by
  intro p
  induction p with
  | nil => intro _ v hv; simp at hv
  | cons a rest ih =>
    intro hchain v hv
    simp only [List.drop_one, List.tail_cons] at hv
    cases rest with
    | nil => simp at hv
    | cons b rest' =>
      rw [List.chain'_cons] at hchain
      rcases List.mem_cons.mp hv with rfl | hv'
      · exact ⟨a, hchain.1⟩
      · exact ih hchain.2 v (by simpa using hv')

theorem inDeg_pos_of_hasEdge (g : NXDiGraph) (x v : String) (h : g.hasEdge x v = true) :
    0 < g.inDeg v := by
  unfold NXDiGraph.hasEdge at h
  rcases List.any_eq_true.mp h with ⟨e, he, hkey⟩
  have hk := of_decide_eq_true hkey
  unfold NXDiGraph.inDeg NXDiGraph.inNbrs
  rw [List.length_map, List.length_pos]
  intro hnil
  have : e ∈ g.edges.filter (fun e => e.2.1 = v) :=
    List.mem_filter.mpr ⟨he, decide_eq_true hk.2⟩
  rw [hnil] at this
  simp at this

theorem sigmaThrough_eq_zero (g : NXDiGraph) (s t v : String) (hin : g.inDeg v = 0) :
    sigmaThrough g s t v = 0 := by
  unfold sigmaThrough
  rw [List.length_eq_zero]
  rw [List.filter_eq_nil_iff]
  intro p hp hdec
  have hv : v ∈ pathInterior p := of_decide_eq_true hdec
  have hp' : p ∈ stSimplePaths g s t := by
    unfold shortestPaths at hp
    rcases hX : spShortestLen? g s t with _ | len
    · rw [hX] at hp
      simp at hp
    · rw [hX] at hp
      exact (List.mem_filter.mp hp).1
  have hchain := stSimplePaths_chain g s t p hp'
  have hvtail : v ∈ p.drop 1 := by
    unfold pathInterior at hv
    exact List.dropLast_subset _ hv
  rcases chain_tail_edge p hchain v hvtail with ⟨x, hx⟩
  have := inDeg_pos_of_hasEdge g x v hx
  omega

theorem rawBetweenness_isolated (g : NXDiGraph) (v : String) (hin : g.inDeg v = 0) :
    rawBetweenness g v = 0 := by
  unfold rawBetweenness
  refine List.sum_eq_zero ?_
  intro q hq
  rcases List.mem_map.mp hq with ⟨st, _, rfl⟩
  split
  · rw [sigmaThrough_eq_zero g st.1 st.2 v hin]
    simp
  · rfl

theorem nxBetweenness_isolated (g : NXDiGraph) (v : String) (hin : g.inDeg v = 0) :
    nxBetweenness g v = 0 := by
  unfold nxBetweenness
  simp only []
  rw [rawBetweenness_isolated g v hin]
  split
  · rw [zero_div]
  · rfl

/-! ## Centrality rows and risk-table bounds -/

theorem mem_calculateCentralityScores (fg : FraudGraphS) (r : CentralityRow) :
    r ∈ calculateCentralityScores fg ↔
      ∃ n ∈ userNodesOf fg.transaction_network, r = mkCentralityRow fg.transaction_network n := by
  unfold calculateCentralityScores
  simp only []
  split
  · rename_i hnil
    rw [hnil]
    simp
  · constructor
    · intro h
      rcases List.mem_map.mp h with ⟨n, hn, rfl⟩
      exact ⟨n, hn, rfl⟩
    · rintro ⟨n, hn, rfl⟩
      exact List.mem_map_of_mem _ hn

theorem mem_nodeIds_of_nodeAttrT (g : NXDiGraph) (m : String)
    (h : (g.nodeAttr? m).isSome) : m ∈ g.nodeIds := by
  unfold NXDiGraph.nodeAttr? at h
  rw [Option.isSome_map'] at h
  rcases Option.isSome_iff_exists.mp h with ⟨p, hp⟩
  have hmem := List.mem_of_find?_eq_some hp
  have hkey := List.find?_some hp
  have : p.1 = m := of_decide_eq_true hkey
  rw [← this]
  exact List.mem_map_of_mem Prod.fst hmem

theorem mem_userNodesOf_buildT (ds : Dataset) (u : UserRow) (hu : u ∈ ds.users) :
    u.user_id ∈ userNodesOf (buildT ds) := by
  obtain ⟨attr, hattr, hf⟩ := user_isSome_buildT ds u hu
  unfold userNodesOf
  refine List.mem_filter.mpr ⟨?_, ?_⟩
  · exact mem_nodeIds_of_nodeAttrT _ _ (by rw [hattr]; rfl)
  · rw [hattr]
    simpa using hf

theorem userNodesOf_buildT_sub (ds : Dataset) (n : String)
    (h : n ∈ userNodesOf (buildT ds)) : n ∈ ds.userIds := by
  unfold userNodesOf at h
  rcases List.mem_filter.mp h with ⟨_, hf⟩
  cases hattr : (buildT ds).nodeAttr? n with
  | none => rw [hattr] at hf; simp at hf
  | some attr =>
    rw [hattr] at hf
    exact fraud_userIds_buildT ds n attr hattr (by simpa using hf)

theorem foldl_max_init_le : ∀ (l : List ℚ) (init : ℚ), init ≤ l.foldl max init := by
  intro l
  induction l with
  | nil => intro init; exact le_refl _
  | cons b bs ih =>
    intro init
    rw [List.foldl_cons]
    exact le_trans (le_max_left init b) (ih (max init b))

theorem le_foldl_max : ∀ (l : List ℚ) (init a : ℚ), a ∈ l → a ≤ l.foldl max init := by
  intro l
  induction l with
  | nil => intro init a h; simp at h
  | cons b bs ih =>
    intro init a h
    rw [List.foldl_cons]
    rcases List.mem_cons.mp h with rfl | h
    · exact le_trans (le_max_right init a) (foldl_max_init_le bs (max init a))
    · exact ih (max init b) a h

theorem deviceRiskOf_nonneg (shared : List ResourceRec) (u : String) :
    0 ≤ deviceRiskOf shared u := by
  unfold deviceRiskOf
  have : ∀ (l : List ResourceRec) (acc : ℚ), 0 ≤ acc →
      0 ≤ l.foldl (fun acc r => if u ∈ r.shared_by then max acc r.risk_score else acc) acc := by
    intro l
    induction l with
    | nil => intro acc h; exact h
    | cons r rs ih =>
      intro acc h
      rw [List.foldl_cons]
      refine ih _ ?_
      split
      · exact le_trans h (le_max_left _ _)
      · exact h
  exact this shared 0 (le_refl 0)

theorem deviceRiskOf_le_one (shared : List ResourceRec) (u : String)
    (h : ∀ rec ∈ shared, rec.risk_score ≤ 1) : deviceRiskOf shared u ≤ 1 := by
  unfold deviceRiskOf
  have : ∀ (l : List ResourceRec), (∀ rec ∈ l, rec.risk_score ≤ 1) → ∀ (acc : ℚ), acc ≤ 1 →
      l.foldl (fun acc r => if u ∈ r.shared_by then max acc r.risk_score else acc) acc ≤ 1 := by
    intro l
    induction l with
    | nil => intro _ acc h; exact h
    | cons r rs ih =>
      intro hl acc hacc
      rw [List.foldl_cons]
      refine ih (fun rec hrec => hl rec (List.mem_cons_of_mem r hrec)) _ ?_
      split
      · exact max_le hacc (hl r (List.mem_cons_self r rs))
      · exact hacc
  exact this shared h 0 (by norm_num)

/-- Mean raw-transfer amount sent by `n` (`groupby("sender_id").mean()`
with `fillna(0)`). -/
def avgAmountOf (tdf : List TxnRow) (n : String) : ℚ :=
  let mine := tdf.filter (fun t => t.sender_id = n)
  if mine = [] then 0 else (mine.map (·.amount)).sum / (mine.length : ℚ)

theorem mkRiskRow_score_bounds (g : NXGraph) (maxPr maxBw : ℚ) (shared : List ResourceRec)
    (tdf : List TxnRow) (c : CentralityRow)
    (hpr : 0 ≤ c.pagerank) (hprm : 0 < maxPr → c.pagerank ≤ maxPr)
    (hbw : 0 ≤ c.betweenness) (hbwm : 0 < maxBw → c.betweenness ≤ maxBw)
    (hsh : ∀ rec ∈ shared, rec.risk_score ≤ 1)
    (hage : (0 : Int) ≤ ((g.nodeAttr? c.user_id).bind (·.account_age_days)).getD 365)
    (hav : avgAmountOf tdf c.user_id ≤ 3000)
    (hct : (tdf.filter (fun t => t.sender_id = c.user_id)).length ≤ 22) :
    0 ≤ (mkRiskRow g maxPr maxBw shared (some tdf) c).risk_score ∧
      (mkRiskRow g maxPr maxBw shared (some tdf) c).risk_score ≤ 1 := by
  have hpn : 0 ≤ (if 0 < maxPr then c.pagerank / maxPr else 0) ∧
      (if 0 < maxPr then c.pagerank / maxPr else 0) ≤ 1 := by
    split
    · rename_i h
      exact ⟨div_nonneg hpr (le_of_lt h), (div_le_one h).mpr (hprm h)⟩
    · exact ⟨le_refl 0, by norm_num⟩
  have hbn : 0 ≤ (if 0 < maxBw then c.betweenness / maxBw else 0) ∧
      (if 0 < maxBw then c.betweenness / maxBw else 0) ≤ 1 := by
    split
    · rename_i h
      exact ⟨div_nonneg hbw (le_of_lt h), (div_le_one h).mpr (hbwm h)⟩
    · exact ⟨le_refl 0, by norm_num⟩
  have hdr : 0 ≤ deviceRiskOf shared c.user_id ∧ deviceRiskOf shared c.user_id ≤ 1 :=
    ⟨deviceRiskOf_nonneg shared c.user_id, deviceRiskOf_le_one shared c.user_id hsh⟩
  have hageQ : (0 : ℚ) ≤
      ((((g.nodeAttr? c.user_id).bind (·.account_age_days)).getD 365 : Int) : ℚ) := by
    exact_mod_cast hage
  have har : 0 ≤ (90 - min ((((g.nodeAttr? c.user_id).bind (·.account_age_days)).getD 365 : Int) : ℚ) 90) / 90 ∧
      (90 - min ((((g.nodeAttr? c.user_id).bind (·.account_age_days)).getD 365 : Int) : ℚ) 90) / 90 ≤ 1 := by
    set aq : ℚ := ((((g.nodeAttr? c.user_id).bind (·.account_age_days)).getD 365 : Int) : ℚ)
    have h90 : min aq 90 ≤ 90 := min_le_right _ _
    have h0 : (0 : ℚ) ≤ min aq 90 := le_min hageQ (by norm_num)
    constructor
    · apply div_nonneg (by linarith) (by norm_num)
    · rw [div_le_one (by norm_num : (0:ℚ) < 90)]
      linarith
  have havg_eq : (if tdf.filter (fun t => t.sender_id = c.user_id) = [] then (0 : ℚ)
      else ((tdf.filter (fun t => t.sender_id = c.user_id)).map (·.amount)).sum /
        ((tdf.filter (fun t => t.sender_id = c.user_id)).length : ℚ)) =
      avgAmountOf tdf c.user_id := rfl
  have hamr : 0 ≤ max (avgAmountOf tdf c.user_id - 500) 0 / 2500 ∧
      max (avgAmountOf tdf c.user_id - 500) 0 / 2500 ≤ 1 := by
    constructor
    · exact div_nonneg (le_max_right _ _) (by norm_num)
    · rw [div_le_one (by norm_num : (0:ℚ) < 2500)]
      exact max_le (by linarith) (by norm_num)
  have hctQ : ((tdf.filter (fun t => t.sender_id = c.user_id)).length : ℚ) ≤ 22 := by
    exact_mod_cast hct
  have hvor : 0 ≤ max (((tdf.filter (fun t => t.sender_id = c.user_id)).length : ℚ) - 7) 0 / 15 ∧
      max (((tdf.filter (fun t => t.sender_id = c.user_id)).length : ℚ) - 7) 0 / 15 ≤ 1 := by
    constructor
    · exact div_nonneg (le_max_right _ _) (by norm_num)
    · rw [div_le_one (by norm_num : (0:ℚ) < 15)]
      exact max_le (by linarith) (by norm_num)
  rw [← havg_eq] at hamr
  simp only [mkRiskRow]
  constructor
  · have h1 := hpn.1
    have h2 := hbn.1
    have h3 := hdr.1
    have h4 := har.1
    have h5 := hamr.1
    have h6 := hvor.1
    linarith
  · have h1 := hpn.2
    have h2 := hbn.2
    have h3 := hdr.2
    have h4 := har.2
    have h5 := hamr.2
    have h6 := hvor.2
    linarith

theorem riskTable_bounds (ds : Dataset)
    (hage : ∀ u ∈ ds.users, 0 ≤ u.account_age_days)
    (hamount : ∀ n ∈ ds.userIds, avgAmountOf ds.transactions n ≤ 3000)
    (hcount : ∀ n ∈ ds.userIds,
      (ds.transactions.filter (fun t => t.sender_id = n)).length ≤ 22) :
    ∀ r ∈ riskTable ds, 0 ≤ r.risk_score ∧ r.risk_score ≤ 1 := by
  intro r hr
  unfold riskTable at hr
  rcases (mem_computeRiskScores _ _ _ _ r).mp hr with ⟨c, hc, rfl⟩
  have hc' := hc
  rcases (mem_calculateCentralityScores _ c).mp hc with ⟨n, hn, rfl⟩
  have hnuser : n ∈ ds.userIds := userNodesOf_buildT_sub ds n hn
  apply mkRiskRow_score_bounds
  · exact nxPagerank_nonneg _ _
  · intro _
    exact le_foldl_max _ 0 _ (List.mem_map_of_mem (·.pagerank) hc')
  · exact nxBetweenness_nonneg _ _
  · intro _
    exact le_foldl_max _ 0 _ (List.mem_map_of_mem (·.betweenness) hc')
  · intro rec hrec
    exact (detectSharedResources_mem_props _ rec hrec).2.2.2.2.2
  · show (0 : Int) ≤ (((buildG ds).nodeAttr? n).bind (·.account_age_days)).getD 365
    cases hA : (buildG ds).nodeAttr? n with
    | none => norm_num
    | some attr =>
      cases hB : attr.account_age_days with
      | none => simp only [Option.some_bind, hB]; norm_num
      | some a =>
        obtain ⟨u, hu, hua⟩ := ageFromUsers_buildG ds n attr a hA hB
        simp only [Option.some_bind, hB, Option.getD_some]
        rw [← hua]
        exact hage u hu
  · exact hamount n hnuser
  · exact hcount n hnuser

/-! ## Detection-accuracy edge case (`C8`) -/

theorem transaction_network_buildFromDataset (ds : Dataset) :
    (buildFromDataset ds).transaction_network = buildT ds := rfl

theorem G_buildFromDataset (ds : Dataset) : (buildFromDataset ds).G = buildG ds := rfl

theorem riskTable_ne_nil (ds : Dataset) (h : ds.users ≠ []) : riskTable ds ≠ [] := by
  cases hus : ds.users with
  | nil => exact absurd hus h
  | cons u us =>
    have hu : u ∈ ds.users := by rw [hus]; exact List.mem_cons_self u us
    have hmem : u.user_id ∈ userNodesOf (buildT ds) := mem_userNodesOf_buildT ds u hu
    have hne : userNodesOf (buildT ds) ≠ [] := List.ne_nil_of_mem hmem
    intro hnil
    unfold riskTable at hnil
    simp only [] at hnil
    have hlen := length_computeRiskScores (buildFromDataset ds).G
      (calculateCentralityScores (buildFromDataset ds))
      (detectSharedResources (buildFromDataset ds).G) (some ds.transactions)
    rw [hnil] at hlen
    unfold calculateCentralityScores at hlen
    simp only [transaction_network_buildFromDataset] at hlen
    rw [if_neg hne, List.length_map] at hlen
    exact hne (List.length_eq_zero.mp hlen.symm)

theorem calculateDetectionAccuracy_zero (riskDf : List RiskRow) (t : ℚ)
    (hne : riskDf ≠ []) (hmax : ∀ r ∈ riskDf, r.risk_score < t) :
    calculateDetectionAccuracy riskDf t = some ⟨0, 0, none⟩ := by
  unfold calculateDetectionAccuracy
  rw [if_neg hne]
  have hfil : riskDf.filter (fun r => t < r.risk_score) = [] := by
    rw [List.filter_eq_nil_iff]
    intro r hr hdec
    exact absurd (of_decide_eq_true hdec) (not_lt_of_lt (hmax r hr))
  simp only [hfil, List.length_nil, if_pos]

/-! ## Relational-graph edge lemmas (`C4`) -/

theorem edges_addNodeG (g : NXGraph) (n : String) (f : NodeAttr → NodeAttr) :
    (g.addNode n f).edges = g.edges := rfl

theorem edges_addEdgeG (g : NXGraph) (a b : String) (f : GEdgeAttr → GEdgeAttr) :
    (g.addEdge a b f).edges = NXGraph.upsertUEdge a b f g.edges := rfl

theorem edges_foldl_addUserNodeG :
    ∀ (us : List UserRow) (g : NXGraph), (us.foldl addUserNodeG g).edges = g.edges := by
  intro us
  induction us with
  | nil => intro g; rfl
  | cons u us ih => intro g; rw [List.foldl_cons]; exact ih _

theorem edges_foldl_addDeviceNodeG :
    ∀ (ds : List DeviceRow) (g : NXGraph), (ds.foldl addDeviceNodeG g).edges = g.edges := by
  intro ds
  induction ds with
  | nil => intro g; rfl
  | cons d ds ih => intro g; rw [List.foldl_cons]; exact ih _

theorem mem_upsertUEdge (a b : String) (f : GEdgeAttr → GEdgeAttr) :
    ∀ (l : List (String × String × GEdgeAttr)) (e : String × String × GEdgeAttr),
      e ∈ NXGraph.upsertUEdge a b f l →
      (∃ e' ∈ l, e.1 = e'.1 ∧ e.2.1 = e'.2.1) ∨ (e.1 = a ∧ e.2.1 = b) := by
  intro l
  induction l with
  | nil =>
    intro e he
    simp only [NXGraph.upsertUEdge, List.mem_singleton] at he
    subst he
    exact Or.inr ⟨rfl, rfl⟩
  | cons x xs ih =>
    intro e he
    unfold NXGraph.upsertUEdge at he
    by_cases hm : NXGraph.ukeyMatch a b x = true
    · rw [if_pos hm] at he
      rcases List.mem_cons.mp he with rfl | he
      · exact Or.inl ⟨x, List.mem_cons_self x xs, rfl, rfl⟩
      · exact Or.inl ⟨e, List.mem_cons_of_mem x he, rfl, rfl⟩
    · rw [if_neg hm] at he
      rcases List.mem_cons.mp he with rfl | he
      · exact Or.inl ⟨e, List.mem_cons_self e xs, rfl, rfl⟩
      · rcases ih e he with ⟨e', he', hk⟩ | hk
        · exact Or.inl ⟨e', List.mem_cons_of_mem x he', hk⟩
        · exact Or.inr hk

theorem hasEdge_upsertUEdge_self (a b : String) (f : GEdgeAttr → GEdgeAttr) :
    ∀ l : List (String × String × GEdgeAttr),
      (NXGraph.upsertUEdge a b f l).any (NXGraph.ukeyMatch a b) = true := by
  intro l
  induction l with
  | nil =>
    simp only [NXGraph.upsertUEdge, List.any_cons]
    have : NXGraph.ukeyMatch a b (a, b, f {}) = true := by
      unfold NXGraph.ukeyMatch
      simp
    rw [this]
    rfl
  | cons x xs ih =>
    unfold NXGraph.upsertUEdge
    by_cases hm : NXGraph.ukeyMatch a b x = true
    · rw [if_pos hm]
      rw [List.any_cons]
      have : NXGraph.ukeyMatch a b (x.1, x.2.1, f x.2.2) = true := by
        unfold NXGraph.ukeyMatch at hm ⊢
        exact hm
      rw [this]
      rfl
    · rw [if_neg hm]
      rw [List.any_cons, ih]
      rw [Bool.or_true]

theorem hasEdge_upsertUEdge_mono (a b c d : String) (f : GEdgeAttr → GEdgeAttr) :
    ∀ l : List (String × String × GEdgeAttr),
      l.any (NXGraph.ukeyMatch a b) = true →
      (NXGraph.upsertUEdge c d f l).any (NXGraph.ukeyMatch a b) = true := by
  intro l
  induction l with
  | nil => intro h; simp at h
  | cons x xs ih =>
    intro h
    rw [List.any_cons] at h
    unfold NXGraph.upsertUEdge
    by_cases hm : NXGraph.ukeyMatch c d x = true
    · rw [if_pos hm, List.any_cons]
      rcases Bool.or_eq_true_iff.mp h with hx | hxs
      · have : NXGraph.ukeyMatch a b (x.1, x.2.1, f x.2.2) = true := by
          unfold NXGraph.ukeyMatch at hx ⊢
          exact hx
        rw [this]
        rfl
      · rw [hxs, Bool.or_true]
    · rw [if_neg hm, List.any_cons]
      rcases Bool.or_eq_true_iff.mp h with hx | hxs
      · rw [hx]
        rfl
      · rw [ih hxs, Bool.or_true]

theorem hasEdge_addEdge_self (g : NXGraph) (a b : String) (f : GEdgeAttr → GEdgeAttr) :
    (g.addEdge a b f).hasEdge a b = true :=
  hasEdge_upsertUEdge_self a b f g.edges

theorem hasEdge_addEdge_mono (g : NXGraph) (a b c d : String) (f : GEdgeAttr → GEdgeAttr)
    (h : g.hasEdge a b = true) : (g.addEdge c d f).hasEdge a b = true :=
  hasEdge_upsertUEdge_mono a b c d f g.edges h

/-- Input sanity for the relational build: links and transfers
reference known accounts/devices, and account and device ids do not
collide. -/
def WellFormed (ds : Dataset) : Prop :=
  (∀ l ∈ ds.user_devices, l.user_id ∈ ds.userIds ∧ l.device_id ∈ ds.deviceIds) ∧
  (∀ t ∈ ds.transactions, t.sender_id ∈ ds.userIds ∧ t.receiver_id ∈ ds.userIds) ∧
  (∀ u ∈ ds.userIds, u ∉ ds.deviceIds)

instance (ds : Dataset) : Decidable (WellFormed ds) := by
  unfold WellFormed
  infer_instance

theorem hasEdge_link_buildG (ds : Dataset) (l : LinkRow) (hl : l ∈ ds.user_devices) :
    (buildG ds).hasEdge l.user_id l.device_id = true := by
  have establish : ∀ (ls : List LinkRow) (g : NXGraph),
      (l ∈ ls ∨ g.hasEdge l.user_id l.device_id = true) →
      (ls.foldl addLinkEdgeG g).hasEdge l.user_id l.device_id = true := by
    intro ls
    induction ls with
    | nil =>
      intro g h
      rcases h with h | h
      · simp at h
      · exact h
    | cons v vs ih =>
      intro g h
      rw [List.foldl_cons]
      apply ih
      rcases h with h | h
      · rcases List.mem_cons.mp h with rfl | hmem
        · exact Or.inr (hasEdge_addEdge_self g _ _ _)
        · exact Or.inl hmem
      · exact Or.inr (hasEdge_addEdge_mono g _ _ _ _ _ h)
  have preserve : ∀ (ts : List TxnRow) (g : NXGraph),
      g.hasEdge l.user_id l.device_id = true →
      (ts.foldl addTxnEdgeG g).hasEdge l.user_id l.device_id = true := by
    intro ts
    induction ts with
    | nil => intro g h; exact h
    | cons t ts ih =>
      intro g h
      rw [List.foldl_cons]
      apply ih
      unfold addTxnEdgeG
      split
      · exact hasEdge_addEdge_mono g _ _ _ _ _ h
      · exact h
  unfold buildG
  exact preserve _ _ (establish _ _ (Or.inl hl))

/-- Every stored edge of the built relational graph is, by its key, a
user-device link edge or a user-user transfer edge. -/
def EdgeProv (ds : Dataset) (g : NXGraph) : Prop :=
  ∀ e ∈ g.edges, (∃ l ∈ ds.user_devices, e.1 = l.user_id ∧ e.2.1 = l.device_id) ∨
    (e.1 ∈ ds.userIds ∧ e.2.1 ∈ ds.userIds)

theorem edgeProv_buildG (ds : Dataset) (hwf : WellFormed ds) : EdgeProv ds (buildG ds) := by
  have hlinks : ∀ (ls : List LinkRow) (g : NXGraph), (∀ l ∈ ls, l ∈ ds.user_devices) →
      EdgeProv ds g → EdgeProv ds (ls.foldl addLinkEdgeG g) := by
    intro ls
    induction ls with
    | nil => intro g _ h; exact h
    | cons v vs ih =>
      intro g hmem h
      rw [List.foldl_cons]
      refine ih _ (fun x hx => hmem x (List.mem_cons_of_mem v hx)) ?_
      intro e he
      unfold addLinkEdgeG at he
      rw [edges_addEdgeG] at he
      rcases mem_upsertUEdge _ _ _ g.edges e he with ⟨e', he', h1, h2⟩ | ⟨h1, h2⟩
      · rcases h e' he' with ⟨l', hl', hk1, hk2⟩ | ⟨hk1, hk2⟩
        · exact Or.inl ⟨l', hl', by rw [h1, hk1], by rw [h2, hk2]⟩
        · exact Or.inr ⟨by rw [h1]; exact hk1, by rw [h2]; exact hk2⟩
      · exact Or.inl ⟨v, hmem v (List.mem_cons_self v vs), h1, h2⟩
  have htxns : ∀ (ts : List TxnRow) (g : NXGraph), (∀ t ∈ ts, t ∈ ds.transactions) →
      EdgeProv ds g → EdgeProv ds (ts.foldl addTxnEdgeG g) := by
    intro ts
    induction ts with
    | nil => intro g _ h; exact h
    | cons t ts ih =>
      intro g hmem h
      rw [List.foldl_cons]
      refine ih _ (fun x hx => hmem x (List.mem_cons_of_mem t hx)) ?_
      unfold addTxnEdgeG
      split
      · intro e he
        rw [edges_addEdgeG] at he
        rcases mem_upsertUEdge _ _ _ g.edges e he with ⟨e', he', h1, h2⟩ | ⟨h1, h2⟩
        · rcases h e' he' with ⟨l', hl', hk1, hk2⟩ | ⟨hk1, hk2⟩
          · exact Or.inl ⟨l', hl', by rw [h1, hk1], by rw [h2, hk2]⟩
          · exact Or.inr ⟨by rw [h1]; exact hk1, by rw [h2]; exact hk2⟩
        · have ht := hwf.2.1 t (hmem t (List.mem_cons_self t ts))
          exact Or.inr ⟨by rw [h1]; exact ht.1, by rw [h2]; exact ht.2⟩
      · exact h
  have hinit : EdgeProv ds
      (ds.devices.foldl addDeviceNodeG (ds.users.foldl addUserNodeG (NXGraph.mk [] []))) := by
    intro e he
    rw [edges_foldl_addDeviceNodeG, edges_foldl_addUserNodeG] at he
    simp at he
  unfold buildG
  exact htxns _ _ (fun t ht => ht) (hlinks _ _ (fun l hl => hl) hinit)

/-! ## Node types in the built relational graph -/

theorem find?_of_mem_nodupKeys (d : String) (attr : NodeAttr) :
    ∀ l : List (String × NodeAttr), (l.map Prod.fst).Nodup → (d, attr) ∈ l →
      (l.find? (fun p => p.1 = d)).map Prod.snd = some attr := by
  intro l
  induction l with
  | nil => intro _ h; simp at h
  | cons p ps ih =>
    intro hnd h
    rw [List.map_cons, List.nodup_cons] at hnd
    rcases List.mem_cons.mp h with rfl | hmem
    · rw [List.find?_cons]
      simp
    · have hkey : ¬(p.1 = d) := by
        intro hpd
        exact hnd.1 (hpd ▸ List.mem_map_of_mem Prod.fst hmem)
      rw [List.find?_cons]
      have hdec : decide (p.1 = d) = false := decide_eq_false hkey
      rw [hdec]
      exact ih hnd.2 hmem

theorem nodeAttr?_of_mem_nodup (g : NXGraph)
    (hnd : (g.nodes.map Prod.fst).Nodup) (d : String) (attr : NodeAttr)
    (h : (d, attr) ∈ g.nodes) : g.nodeAttr? d = some attr :=
  find?_of_mem_nodupKeys d attr g.nodes hnd h

theorem mem_of_nodeAttr? (g : NXGraph) (d : String) (attr : NodeAttr)
    (h : g.nodeAttr? d = some attr) : (d, attr) ∈ g.nodes := by
  unfold NXGraph.nodeAttr? at h
  rcases Option.map_eq_some'.mp h with ⟨p, hp, hsnd⟩
  have hmem := List.mem_of_find?_eq_some hp
  have hdec := List.find?_some hp
  have hkey : p.1 = d := of_decide_eq_true hdec
  have hpd : p = (d, attr) := by
    cases p
    simp only at hkey hsnd
    rw [hkey, hsnd]
  rwa [hpd] at hmem

/-- Every device row yields a device-typed node in the final graph. -/
theorem device_typed_buildG (ds : Dataset) (d : DeviceRow) (hd : d ∈ ds.devices) :
    ∃ attr, (buildG ds).nodeAttr? d.device_id = some attr ∧
      attr.node_type = some "device" := by
  have keep : ∀ (g : NXGraph) (v : DeviceRow),
      (∃ a, g.nodeAttr? d.device_id = some a ∧ a.node_type = some "device") →
      ∃ a, (addDeviceNodeG g v).nodeAttr? d.device_id = some a ∧
        a.node_type = some "device" := by
    intro g v hq
    obtain ⟨a, ha, ht⟩ := hq
    unfold addDeviceNodeG
    rw [nodeAttrG_addNode]
    by_cases hn : d.device_id = v.device_id
    · rw [if_pos hn]
      exact ⟨_, rfl, rfl⟩
    · rw [if_neg hn]
      exact ⟨a, ha, ht⟩
  have establish : ∀ (devs : List DeviceRow) (g : NXGraph),
      (d ∈ devs ∨ ∃ a, g.nodeAttr? d.device_id = some a ∧ a.node_type = some "device") →
      ∃ a, (devs.foldl addDeviceNodeG g).nodeAttr? d.device_id = some a ∧
        a.node_type = some "device" := by
    intro devs
    induction devs with
    | nil =>
      intro g h
      rcases h with h | h
      · simp at h
      · exact h
    | cons v vs ih =>
      intro g h
      rw [List.foldl_cons]
      apply ih
      rcases h with h | h
      · rcases List.mem_cons.mp h with rfl | hmem
        · refine Or.inr ?_
          unfold addDeviceNodeG
          rw [nodeAttrG_addNode, if_pos rfl]
          exact ⟨_, rfl, rfl⟩
        · exact Or.inl hmem
      · exact Or.inr (keep g v h)
  have presEdge : ∀ (g : NXGraph) (x y : String) (f : GEdgeAttr → GEdgeAttr),
      (∃ a, g.nodeAttr? d.device_id = some a ∧ a.node_type = some "device") →
      ∃ a, (g.addEdge x y f).nodeAttr? d.device_id = some a ∧
        a.node_type = some "device" := by
    intro g x y f ⟨a, ha, ht⟩
    rcases nodeAttrG_addEdge g x y f d.device_id with heq | ⟨hn, _⟩
    · exact ⟨a, by rw [heq]; exact ha, ht⟩
    · rw [ha] at hn
      exact absurd hn (by simp)
  have hlinks : ∀ (ls : List LinkRow) (g : NXGraph),
      (∃ a, g.nodeAttr? d.device_id = some a ∧ a.node_type = some "device") →
      ∃ a, (ls.foldl addLinkEdgeG g).nodeAttr? d.device_id = some a ∧
        a.node_type = some "device" := by
    intro ls
    induction ls with
    | nil => intro g h; exact h
    | cons v vs ih =>
      intro g h
      rw [List.foldl_cons]
      exact ih _ (presEdge g _ _ _ h)
  have htxns : ∀ (ts : List TxnRow) (g : NXGraph),
      (∃ a, g.nodeAttr? d.device_id = some a ∧ a.node_type = some "device") →
      ∃ a, (ts.foldl addTxnEdgeG g).nodeAttr? d.device_id = some a ∧
        a.node_type = some "device" := by
    intro ts
    induction ts with
    | nil => intro g h; exact h
    | cons t ts ih =>
      intro g h
      rw [List.foldl_cons]
      refine ih _ ?_
      unfold addTxnEdgeG
      split
      · exact presEdge g _ _ _ h
      · exact h
  unfold buildG
  exact htxns _ _ (hlinks _ _ (establish _ _ (Or.inl hd)))

/-- Only the device loop sets `node_type="device"`. -/
theorem deviceType_from_devices (ds : Dataset) (n : String) (attr : NodeAttr)
    (h : (buildG ds).nodeAttr? n = some attr) (ht : attr.node_type = some "device") :
    n ∈ ds.deviceIds := by
  have presEdge : ∀ (g : NXGraph) (x y : String) (f : GEdgeAttr → GEdgeAttr),
      (∀ a, g.nodeAttr? n = some a → a.node_type = some "device" → n ∈ ds.deviceIds) →
      ∀ a, (g.addEdge x y f).nodeAttr? n = some a → a.node_type = some "device" →
        n ∈ ds.deviceIds := by
    intro g x y f hg a ha hta
    rcases nodeAttrG_addEdge g x y f n with heq | ⟨_, heq⟩
    · rw [heq] at ha
      exact hg a ha hta
    · rw [heq, Option.some.injEq] at ha
      rw [← ha] at hta
      exact absurd hta (by simp)
  have husers : ∀ (us : List UserRow) (g : NXGraph),
      (∀ a, g.nodeAttr? n = some a → a.node_type = some "device" → n ∈ ds.deviceIds) →
      ∀ a, (us.foldl addUserNodeG g).nodeAttr? n = some a → a.node_type = some "device" →
        n ∈ ds.deviceIds := by
    intro us
    induction us with
    | nil => intro g hg; exact hg
    | cons u us ih =>
      intro g hg
      rw [List.foldl_cons]
      refine ih _ ?_
      intro a ha hta
      unfold addUserNodeG at ha
      rw [nodeAttrG_addNode] at ha
      by_cases hn : n = u.user_id
      · rw [if_pos hn, Option.some.injEq] at ha
        rw [← ha] at hta
        exact absurd hta (by simp)
      · rw [if_neg hn] at ha
        exact hg a ha hta
  have hdevs : ∀ (devs : List DeviceRow) (g : NXGraph), (∀ v ∈ devs, v ∈ ds.devices) →
      (∀ a, g.nodeAttr? n = some a → a.node_type = some "device" → n ∈ ds.deviceIds) →
      ∀ a, (devs.foldl addDeviceNodeG g).nodeAttr? n = some a →
        a.node_type = some "device" → n ∈ ds.deviceIds := by
    intro devs
    induction devs with
    | nil => intro g _ hg; exact hg
    | cons v vs ih =>
      intro g hmem hg
      rw [List.foldl_cons]
      refine ih _ (fun x hx => hmem x (List.mem_cons_of_mem v hx)) ?_
      intro a ha hta
      unfold addDeviceNodeG at ha
      rw [nodeAttrG_addNode] at ha
      by_cases hn : n = v.device_id
      · rw [hn]
        exact List.mem_map_of_mem (·.device_id) (hmem v (List.mem_cons_self v vs))
      · rw [if_neg hn] at ha
        exact hg a ha hta
  have hlinks : ∀ (ls : List LinkRow) (g : NXGraph),
      (∀ a, g.nodeAttr? n = some a → a.node_type = some "device" → n ∈ ds.deviceIds) →
      ∀ a, (ls.foldl addLinkEdgeG g).nodeAttr? n = some a → a.node_type = some "device" →
        n ∈ ds.deviceIds := by
    intro ls
    induction ls with
    | nil => intro g hg; exact hg
    | cons v vs ih =>
      intro g hg
      rw [List.foldl_cons]
      exact ih _ (presEdge _ _ _ _ hg)
  have htxns : ∀ (ts : List TxnRow) (g : NXGraph),
      (∀ a, g.nodeAttr? n = some a → a.node_type = some "device" → n ∈ ds.deviceIds) →
      ∀ a, (ts.foldl addTxnEdgeG g).nodeAttr? n = some a → a.node_type = some "device" →
        n ∈ ds.deviceIds := by
    intro ts
    induction ts with
    | nil => intro g hg; exact hg
    | cons t ts ih =>
      intro g hg
      rw [List.foldl_cons]
      refine ih _ ?_
      intro a ha hta
      unfold addTxnEdgeG at ha
      split at ha
      · exact presEdge _ _ _ _ hg a ha hta
      · exact hg a ha hta
  unfold buildG at h
  refine htxns _ _ (hlinks _ _ (hdevs _ _ (fun v hv => hv) (husers _ _ ?_))) attr h ht
  intro a ha
  exact absurd ha (by unfold NXGraph.nodeAttr?; simp)

/-- Every user row whose id is not also a device id is user-typed in
the final graph. -/
theorem user_typed_buildG (ds : Dataset) (u : UserRow) (hu : u ∈ ds.users)
    (hnd : u.user_id ∉ ds.deviceIds) :
    (buildG ds).nodeType? u.user_id = some "user" := by
  have keepU : ∀ (g : NXGraph) (v : UserRow),
      g.nodeType? u.user_id = some "user" →
      (addUserNodeG g v).nodeType? u.user_id = some "user" := by
    intro g v h
    unfold NXGraph.nodeType? at h ⊢
    unfold addUserNodeG
    rw [nodeAttrG_addNode]
    by_cases hn : u.user_id = v.user_id
    · rw [if_pos hn]
      rfl
    · rw [if_neg hn]
      exact h
  have establish : ∀ (us : List UserRow) (g : NXGraph),
      (u ∈ us ∨ g.nodeType? u.user_id = some "user") →
      (us.foldl addUserNodeG g).nodeType? u.user_id = some "user" := by
    intro us
    induction us with
    | nil =>
      intro g h
      rcases h with h | h
      · simp at h
      · exact h
    | cons v vs ih =>
      intro g h
      rw [List.foldl_cons]
      apply ih
      rcases h with h | h
      · rcases List.mem_cons.mp h with rfl | hmem
        · refine Or.inr ?_
          unfold NXGraph.nodeType? addUserNodeG
          rw [nodeAttrG_addNode, if_pos rfl]
          rfl
        · exact Or.inl hmem
      · exact Or.inr (keepU g v h)
  have keepD : ∀ (devs : List DeviceRow) (g : NXGraph), (∀ v ∈ devs, v ∈ ds.devices) →
      g.nodeType? u.user_id = some "user" →
      (devs.foldl addDeviceNodeG g).nodeType? u.user_id = some "user" := by
    intro devs
    induction devs with
    | nil => intro g _ h; exact h
    | cons v vs ih =>
      intro g hmem h
      rw [List.foldl_cons]
      refine ih _ (fun x hx => hmem x (List.mem_cons_of_mem v hx)) ?_
      unfold NXGraph.nodeType? at h ⊢
      unfold addDeviceNodeG
      rw [nodeAttrG_addNode]
      by_cases hn : u.user_id = v.device_id
      · exact absurd (hn ▸ List.mem_map_of_mem (·.device_id)
          (hmem v (List.mem_cons_self v vs))) hnd
      · rw [if_neg hn]
        exact h
  have presEdge : ∀ (g : NXGraph) (x y : String) (f : GEdgeAttr → GEdgeAttr),
      g.nodeType? u.user_id = some "user" →
      (g.addEdge x y f).nodeType? u.user_id = some "user" := by
    intro g x y f h
    unfold NXGraph.nodeType? at h ⊢
    rcases nodeAttrG_addEdge g x y f u.user_id with heq | ⟨hn, _⟩
    · rw [heq]
      exact h
    · rw [hn] at h
      exact absurd h (by simp)
  have hlinks : ∀ (ls : List LinkRow) (g : NXGraph),
      g.nodeType? u.user_id = some "user" →
      (ls.foldl addLinkEdgeG g).nodeType? u.user_id = some "user" := by
    intro ls
    induction ls with
    | nil => intro g h; exact h
    | cons v vs ih =>
      intro g h
      rw [List.foldl_cons]
      exact ih _ (presEdge _ _ _ _ h)
  have htxns : ∀ (ts : List TxnRow) (g : NXGraph),
      g.nodeType? u.user_id = some "user" →
      (ts.foldl addTxnEdgeG g).nodeType? u.user_id = some "user" := by
    intro ts
    induction ts with
    | nil => intro g h; exact h
    | cons t ts ih =>
      intro g h
      rw [List.foldl_cons]
      refine ih _ ?_
      unfold addTxnEdgeG
      split
      · exact presEdge _ _ _ _ h
      · exact h
  unfold buildG
  exact htxns _ _ (hlinks _ _ (keepD _ _ (fun v hv => hv) (establish _ _ (Or.inl hu))))

/-! ## Neighbour lists of the relational graph -/

/-- Two undirected edge entries cover the same unordered node pair. -/
def sameUKey (e e' : String × String × GEdgeAttr) : Prop :=
  (e'.1 = e.1 ∧ e'.2.1 = e.2.1) ∨ (e'.1 = e.2.1 ∧ e'.2.1 = e.1)

theorem nbr_entry_char (n u : String) (e : String × String × GEdgeAttr)
    (he : (if e.1 = n then some e.2.1 else if e.2.1 = n then some e.1 else none) = some u) :
    (e.1 = n ∧ e.2.1 = u) ∨ (e.2.1 = n ∧ e.1 = u) := by
  by_cases h1 : e.1 = n
  · rw [if_pos h1, Option.some.injEq] at he
    exact Or.inl ⟨h1, he⟩
  · rw [if_neg h1] at he
    by_cases h2 : e.2.1 = n
    · rw [if_pos h2, Option.some.injEq] at he
      exact Or.inr ⟨h2, he⟩
    · rw [if_neg h2] at he
      exact absurd he (by simp)

theorem mem_nbrs_elim (g : NXGraph) (n u : String) (h : u ∈ g.nbrs n) :
    ∃ e ∈ g.edges, (e.1 = n ∧ e.2.1 = u) ∨ (e.2.1 = n ∧ e.1 = u) := by
  unfold NXGraph.nbrs at h
  rcases List.mem_filterMap.mp h with ⟨e, he, hfe⟩
  exact ⟨e, he, nbr_entry_char n u e hfe⟩

theorem mem_nbrs_intro (g : NXGraph) (n u : String) (hne : u ≠ n)
    (e : String × String × GEdgeAttr) (he : e ∈ g.edges)
    (hkey : (e.1 = n ∧ e.2.1 = u) ∨ (e.1 = u ∧ e.2.1 = n)) : u ∈ g.nbrs n := by
  unfold NXGraph.nbrs
  refine List.mem_filterMap.mpr ⟨e, he, ?_⟩
  rcases hkey with ⟨h1, h2⟩ | ⟨h1, h2⟩
  · rw [if_pos h1, h2]
  · have hnn : ¬(e.1 = n) := by rw [h1]; exact hne
    rw [if_neg hnn, if_pos h2, h1]

theorem sameUKey_of_nbr (n u : String) (e e' : String × String × GEdgeAttr)
    (he : (e.1 = n ∧ e.2.1 = u) ∨ (e.2.1 = n ∧ e.1 = u))
    (he' : (e'.1 = n ∧ e'.2.1 = u) ∨ (e'.2.1 = n ∧ e'.1 = u)) : sameUKey e e' := by
  unfold sameUKey
  rcases he with ⟨h1, h2⟩ | ⟨h1, h2⟩ <;> rcases he' with ⟨h3, h4⟩ | ⟨h3, h4⟩
  · exact Or.inl ⟨by rw [h3]; exact h1.symm, by rw [h4]; exact h2.symm⟩
  · exact Or.inr ⟨by rw [h4]; exact h2.symm, by rw [h3]; exact h1.symm⟩
  · exact Or.inr ⟨by rw [h3]; exact h1.symm, by rw [h4]; exact h2.symm⟩
  · exact Or.inl ⟨by rw [h4]; exact h2.symm, by rw [h3]; exact h1.symm⟩

theorem nbrs_filterMap_nodup (n : String) :
    ∀ l : List (String × String × GEdgeAttr),
      l.Pairwise (fun e e' => ¬ sameUKey e e') →
      (l.filterMap (fun e =>
        if e.1 = n then some e.2.1 else if e.2.1 = n then some e.1 else none)).Nodup := by
  intro l
  induction l with
  | nil => intro _; simp
  | cons e es ih =>
    intro hp
    rw [List.pairwise_cons] at hp
    rw [List.filterMap_cons]
    cases hf : (if e.1 = n then some e.2.1 else if e.2.1 = n then some e.1 else none) with
    | none => exact ih hp.2
    | some u =>
      refine List.nodup_cons.mpr ⟨?_, ih hp.2⟩
      intro hu
      rcases List.mem_filterMap.mp hu with ⟨e', he', hfe'⟩
      exact hp.1 e' he'
        (sameUKey_of_nbr n u e e' (nbr_entry_char n u e hf) (nbr_entry_char n u e' hfe'))

theorem pairwise_upsertUEdge (a b : String) (f : GEdgeAttr → GEdgeAttr) :
    ∀ l : List (String × String × GEdgeAttr),
      l.Pairwise (fun e e' => ¬ sameUKey e e') →
      (NXGraph.upsertUEdge a b f l).Pairwise (fun e e' => ¬ sameUKey e e') := by
  intro l
  induction l with
  | nil =>
    intro _
    simp [NXGraph.upsertUEdge]
  | cons x xs ih =>
    intro hp
    rw [List.pairwise_cons] at hp
    unfold NXGraph.upsertUEdge
    by_cases hm : NXGraph.ukeyMatch a b x = true
    · rw [if_pos hm]
      rw [List.pairwise_cons]
      refine ⟨?_, hp.2⟩
      intro e' he' hsame
      refine hp.1 e' he' ?_
      unfold sameUKey at hsame ⊢
      exact hsame
    · rw [if_neg hm]
      rw [List.pairwise_cons]
      refine ⟨?_, ih hp.2⟩
      intro e he hsame
      rcases mem_upsertUEdge a b f xs e he with ⟨e', he', h1, h2⟩ | ⟨h1, h2⟩
      · refine hp.1 e' he' ?_
        unfold sameUKey at hsame ⊢
        rw [h1, h2] at hsame
        exact hsame
      · have hx : ¬((x.1 = a ∧ x.2.1 = b) ∨ (x.1 = b ∧ x.2.1 = a)) := by
          intro hc
          exact hm (by unfold NXGraph.ukeyMatch; exact decide_eq_true hc)
        unfold sameUKey at hsame
        rw [h1, h2] at hsame
        rcases hsame with ⟨hc1, hc2⟩ | ⟨hc1, hc2⟩
        · exact hx (Or.inl ⟨hc1.symm, hc2.symm⟩)
        · exact hx (Or.inr ⟨hc2.symm, hc1.symm⟩)

theorem uDistinct_buildG (ds : Dataset) :
    (buildG ds).edges.Pairwise (fun e e' => ¬ sameUKey e e') := by
  have hlinks : ∀ (ls : List LinkRow) (g : NXGraph),
      g.edges.Pairwise (fun e e' => ¬ sameUKey e e') →
      (ls.foldl addLinkEdgeG g).edges.Pairwise (fun e e' => ¬ sameUKey e e') := by
    intro ls
    induction ls with
    | nil => intro g h; exact h
    | cons v vs ih =>
      intro g h
      rw [List.foldl_cons]
      refine ih _ ?_
      unfold addLinkEdgeG
      rw [edges_addEdgeG]
      exact pairwise_upsertUEdge _ _ _ _ h
  have htxns : ∀ (ts : List TxnRow) (g : NXGraph),
      g.edges.Pairwise (fun e e' => ¬ sameUKey e e') →
      (ts.foldl addTxnEdgeG g).edges.Pairwise (fun e e' => ¬ sameUKey e e') := by
    intro ts
    induction ts with
    | nil => intro g h; exact h
    | cons t ts ih =>
      intro g h
      rw [List.foldl_cons]
      refine ih _ ?_
      unfold addTxnEdgeG
      split
      · rw [edges_addEdgeG]
        exact pairwise_upsertUEdge _ _ _ _ h
      · exact h
  unfold buildG
  refine htxns _ _ (hlinks _ _ ?_)
  rw [edges_foldl_addDeviceNodeG, edges_foldl_addUserNodeG]
  exact List.Pairwise.nil

theorem nbrs_nodup_buildG (ds : Dataset) (n : String) : ((buildG ds).nbrs n).Nodup :=
  nbrs_filterMap_nodup n (buildG ds).edges (uDistinct_buildG ds)

/-- Distinct users linked to a device by the input link table. -/
def linkedUsers (ds : Dataset) (d : String) : List String :=
  ((ds.user_devices.filter (fun l => l.device_id = d)).map (·.user_id)).dedup

theorem one_lt_length_of_two_mem {α : Type} {l : List α} {x y : α}
    (hx : x ∈ l) (hy : y ∈ l) (hxy : x ≠ y) : 1 < l.length := by
  cases l with
  | nil => simp at hx
  | cons a l' =>
    cases l' with
    | nil =>
      rw [List.mem_singleton] at hx hy
      exact absurd (hx.trans hy.symm) hxy
    | cons b l'' => simp

theorem getSharedDevices_sound (ds : Dataset) (hwf : WellFormed ds) (d : String)
    (us : List String) (h : (d, us) ∈ getSharedDevices (buildG ds)) :
    d ∈ ds.deviceIds ∧ 2 ≤ us.length ∧ us.Nodup ∧
      ∀ u ∈ us, u ∈ ds.userIds ∧ ∃ l ∈ ds.user_devices, l.user_id = u ∧ l.device_id = d := by
  rcases (mem_getSharedDevices _ d us).mp h with ⟨attr, hmem, htype, hus, hlen⟩
  have hattr : (buildG ds).nodeAttr? d = some attr :=
    nodeAttr?_of_mem_nodup _ (nodupKeys_buildG ds) d attr hmem
  have hdev : d ∈ ds.deviceIds := deviceType_from_devices ds d attr hattr htype
  refine ⟨hdev, by omega, ?_, ?_⟩
  · rw [hus]
    exact (nbrs_nodup_buildG ds d).filter _
  · intro u hu
    rw [hus] at hu
    have hu' : u ∈ (buildG ds).nbrs d := (List.mem_filter.mp hu).1
    rcases mem_nbrs_elim _ d u hu' with ⟨e, he, hkey⟩
    rcases edgeProv_buildG ds hwf e he with ⟨l, hl, hk1, hk2⟩ | ⟨hk1, hk2⟩
    · rcases hkey with ⟨h1, h2⟩ | ⟨h1, h2⟩
      · have hdu : d ∈ ds.userIds := by
          rw [← h1, hk1]
          exact (hwf.1 l hl).1
        exact absurd hdev (hwf.2.2 d hdu)
      · have hld : l.device_id = d := by rw [← hk2, h1]
        have hlu : l.user_id = u := by rw [← hk1, h2]
        exact ⟨hlu ▸ (hwf.1 l hl).1, l, hl, hlu, hld⟩
    · rcases hkey with ⟨h1, _⟩ | ⟨h1, _⟩
      · have hdu : d ∈ ds.userIds := h1 ▸ hk1
        exact absurd hdev (hwf.2.2 d hdu)
      · have hdu : d ∈ ds.userIds := h1 ▸ hk2
        exact absurd hdev (hwf.2.2 d hdu)

theorem getSharedDevices_complete (ds : Dataset) (hwf : WellFormed ds) (d : String)
    (hd : d ∈ ds.deviceIds) (hlink : 2 ≤ (linkedUsers ds d).length) :
    ∃ us, (d, us) ∈ getSharedDevices (buildG ds) := by
  rcases List.mem_map.mp hd with ⟨drow, hdrow, hdid⟩
  obtain ⟨attr, hattr0, htype⟩ := device_typed_buildG ds drow hdrow
  rw [hdid] at hattr0
  have husers : ∀ u' ∈ linkedUsers ds d,
      u' ∈ ((buildG ds).nbrs d).filter
        (fun m => (buildG ds).nodeType? m = some "user") := by
    intro u' hu'
    unfold linkedUsers at hu'
    rw [List.mem_dedup] at hu'
    rcases List.mem_map.mp hu' with ⟨l, hlf, hlu⟩
    rcases List.mem_filter.mp hlf with ⟨hl, hldec⟩
    have hld : l.device_id = d := of_decide_eq_true hldec
    have huid : l.user_id ∈ ds.userIds := (hwf.1 l hl).1
    have hne : u' ≠ d := by
      rw [← hlu]
      intro heq
      exact hwf.2.2 l.user_id huid (heq ▸ hd)
    have hedge := hasEdge_link_buildG ds l hl
    unfold NXGraph.hasEdge at hedge
    rcases List.any_eq_true.mp hedge with ⟨e, he, hkeydec⟩
    unfold NXGraph.ukeyMatch at hkeydec
    have hkey := of_decide_eq_true hkeydec
    refine List.mem_filter.mpr ⟨?_, ?_⟩
    · refine mem_nbrs_intro _ d u' hne e he ?_
      rcases hkey with ⟨h1, h2⟩ | ⟨h1, h2⟩
      · exact Or.inr ⟨by rw [h1, hlu], by rw [h2, hld]⟩
      · exact Or.inl ⟨by rw [h1, hld], by rw [h2, hlu]⟩
    · rcases List.mem_map.mp huid with ⟨urow, hurow, huru⟩
      refine decide_eq_true ?_
      rw [← hlu, ← huru]
      exact user_typed_buildG ds urow hurow (huru ▸ (hlu ▸ hwf.2.2 l.user_id huid))
  have hnddedup : (linkedUsers ds d).Nodup := List.nodup_dedup _
  obtain ⟨x, y, hx, hy, hxy⟩ : ∃ x y, x ∈ linkedUsers ds d ∧ y ∈ linkedUsers ds d ∧
      x ≠ y := by
    cases hL : linkedUsers ds d with
    | nil => rw [hL] at hlink; simp at hlink
    | cons x rest =>
      cases rest with
      | nil => rw [hL] at hlink; simp at hlink
      | cons y rest' =>
        rw [hL] at hnddedup
        rw [List.nodup_cons] at hnddedup
        refine ⟨x, y, by simp, by simp, ?_⟩
        intro hxy
        exact hnddedup.1 (hxy ▸ List.mem_cons_self y rest')
  have hlen : 1 < (((buildG ds).nbrs d).filter
      (fun m => (buildG ds).nodeType? m = some "user")).length :=
    one_lt_length_of_two_mem (husers x hx) (husers y hy) hxy
  refine ⟨_, (mem_getSharedDevices _ d _).mpr
    ⟨attr, mem_of_nodeAttr? _ _ _ hattr0, htype, rfl, hlen⟩⟩

/-! # Claim theorems

Concrete datasets used as witnesses and counterexamples. -/

/-- One young account whose single (pending) transfer is huge. -/
def dsHighAmount : Dataset :=
  ⟨[⟨"u1", false, 10, "basic"⟩], [], [],
   [⟨"t1", "u1", "x", 100000, 0, false, "pending"⟩]⟩

/-- One young account with a modest pending transfer. -/
def dsSmallAmount : Dataset :=
  ⟨[⟨"u1", false, 10, "basic"⟩], [], [],
   [⟨"t1", "u1", "x", 600, 0, false, "pending"⟩]⟩

/-- Two accounts with two completed transfers over the same pair. -/
def dsDoubleTransfer : Dataset :=
  ⟨[⟨"a", false, 100, "basic"⟩, ⟨"b", false, 100, "basic"⟩], [], [],
   [⟨"t1", "a", "b", 100, 0, false, "completed"⟩,
    ⟨"t2", "a", "b", 50, 0, false, "completed"⟩]⟩

/-- Two accounts with one completed transfer. -/
def dsSingleTransfer : Dataset :=
  ⟨[⟨"a", false, 100, "basic"⟩, ⟨"b", false, 100, "basic"⟩], [], [],
   [⟨"t1", "a", "b", 100, 0, false, "completed"⟩]⟩

/-- Two accounts sharing one device. -/
def dsSharedDevice : Dataset :=
  ⟨[⟨"u1", false, 100, "basic"⟩, ⟨"u2", false, 100, "basic"⟩],
   [⟨"d1", "mobile"⟩], [⟨"u1", "d1"⟩, ⟨"u2", "d1"⟩], []⟩

/-- A single account and nothing else. -/
def dsLoneUser : Dataset :=
  ⟨[⟨"u1", false, 100, "basic"⟩], [], [], []⟩

/-- C1 (amended): composite risk scores of a full analysis pass lie in
[0, 1] provided every account age is nonnegative, every account's mean
raw-transfer amount is at most 3000 and every account sends at most 22
raw transfers; the code does not clip `amount_risk`/`volume_risk`, so
beyond those thresholds the composite can exceed 1. -/
theorem C1_risk_score_bounded (ds : Dataset)
    (hage : ∀ u ∈ ds.users, 0 ≤ u.account_age_days)
    (hamount : ∀ n ∈ ds.userIds, avgAmountOf ds.transactions n ≤ 3000)
    (hcount : ∀ n ∈ ds.userIds,
      (ds.transactions.filter (fun t => t.sender_id = n)).length ≤ 22) :
    ∀ r ∈ riskTable ds, 0 ≤ r.risk_score ∧ r.risk_score ≤ 1 :=
  riskTable_bounds ds hage hamount hcount

/-- C1 witness: the hypotheses hold and the bounds follow on a concrete
dataset. -/
theorem C1_risk_score_bounded_witness :
    ((∀ u ∈ dsSmallAmount.users, 0 ≤ u.account_age_days) ∧
     (∀ n ∈ dsSmallAmount.userIds, avgAmountOf dsSmallAmount.transactions n ≤ 3000) ∧
     (∀ n ∈ dsSmallAmount.userIds,
       (dsSmallAmount.transactions.filter (fun t => t.sender_id = n)).length ≤ 22)) ∧
    (∀ r ∈ riskTable dsSmallAmount, 0 ≤ r.risk_score ∧ r.risk_score ≤ 1) :=
  ⟨⟨by decide, by with_unfolding_all decide, by decide⟩,
   C1_risk_score_bounded dsSmallAmount (by decide)
     (by with_unfolding_all decide) (by decide)⟩

/-- C1 counterexample: with a large enough mean transfer amount the
composite risk score exceeds 1, so the claimed unconditional
`0 ≤ risk_score ≤ 1` bound is false on the code. -/
theorem C1_risk_score_counterexample :
    ((riskTable dsHighAmount).any fun r => 1 < r.risk_score) = true := by
  with_unfolding_all decide

/-- C2: lowering the risk threshold never decreases the number of
accounts flagged high-risk by the report. -/
theorem C2_high_risk_monotone (riskDf : List RiskRow) (tLow tHigh : ℚ)
    (h : tLow < tHigh) :
    (highRiskUsers riskDf tHigh).length ≤ (highRiskUsers riskDf tLow).length := by
  unfold highRiskUsers
  rw [List.length_map, List.length_map,
    ← List.countP_eq_length_filter, ← List.countP_eq_length_filter]
  apply List.countP_mono_left
  intro r _ hdec
  exact decide_eq_true (lt_trans h (of_decide_eq_true hdec))

/-- C2 witness: thresholds 0 < 1 on a concrete risk table. -/
theorem C2_high_risk_monotone_witness :
    (0 : ℚ) < 1 ∧
    (highRiskUsers (riskTable dsSmallAmount) 1).length ≤
      (highRiskUsers (riskTable dsSmallAmount) 0).length :=
  ⟨by norm_num, C2_high_risk_monotone (riskTable dsSmallAmount) 0 1 (by norm_num)⟩

/-- C3 (amended): the in-process transfer network aggregates the `k`
completed transfers of an ordered pair into exactly one edge carrying
their amount sum as `total_amount` and `k` as `transaction_count`
(no edge when `k = 0`); the external-store backend's in-memory mirror
also keeps exactly one edge per ordered pair, but stores only the last
completed transfer's `transaction_id`/`amount`/fraud flag, with no
aggregate fields. -/
theorem C3_transfer_aggregation (ds : Dataset) (a b : String) :
    (completedBetween ds a b ≠ [] →
      (buildT ds).edgeAttr? a b
        = some ⟨((completedBetween ds a b).map (·.amount)).sum,
                (completedBetween ds a b).length⟩
      ∧ (buildT ds).edges.countP (fun e => e.1 = a ∧ e.2.1 = b) = 1
      ∧ (n4BuildT ds).edges.countP (fun e => e.1 = a ∧ e.2.1 = b) = 1
      ∧ (n4BuildT ds).edgeAttr? a b = ((completedBetween ds a b).getLast?).map n4Attr)
    ∧ (completedBetween ds a b = [] →
      (buildT ds).edgeAttr? a b = none ∧ (n4BuildT ds).edgeAttr? a b = none) := by
  have hT := buildT_edge_characterization ds a b
  have hN := n4BuildT_edge_characterization ds a b
  constructor
  · intro hne
    exact ⟨(hT.1 hne).1, (hT.1 hne).2, hN.2 hne, hN.1⟩
  · intro hnil
    refine ⟨(hT.2 hnil).1, ?_⟩
    rw [hN.1, hnil]
    rfl

/-- C3 witness: both backends evaluated on a pair with two completed
transfers. -/
theorem C3_transfer_aggregation_witness :
    completedBetween dsDoubleTransfer "a" "b" ≠ [] ∧
    ((buildT dsDoubleTransfer).edgeAttr? "a" "b"
        = some ⟨((completedBetween dsDoubleTransfer "a" "b").map (·.amount)).sum,
                (completedBetween dsDoubleTransfer "a" "b").length⟩
      ∧ (buildT dsDoubleTransfer).edges.countP (fun e => e.1 = "a" ∧ e.2.1 = "b") = 1
      ∧ (n4BuildT dsDoubleTransfer).edges.countP (fun e => e.1 = "a" ∧ e.2.1 = "b") = 1
      ∧ (n4BuildT dsDoubleTransfer).edgeAttr? "a" "b"
        = ((completedBetween dsDoubleTransfer "a" "b").getLast?).map n4Attr) :=
  ⟨by with_unfolding_all decide,
   (C3_transfer_aggregation dsDoubleTransfer "a" "b").1
     (by with_unfolding_all decide)⟩

/-- C3 counterexample: after two completed transfers of 100 and 50, the
Neo4j mirror's edge carries only the last amount (50), not the claimed
`total_amount` of 150 (it has no aggregate fields at all). -/
theorem C3_mirror_counterexample :
    (n4BuildT dsDoubleTransfer).edgeAttr? "a" "b" = some ⟨"t2", 50, false⟩ ∧
    ((completedBetween dsDoubleTransfer "a" "b").map (·.amount)).sum = 150 ∧
    (50 : ℚ) ≠ 150 := by
  refine ⟨by with_unfolding_all decide, by with_unfolding_all decide, by norm_num⟩

/-- C4: `get_shared_devices` returns exactly the devices linked to at
least two accounts, every listed account being genuinely linked. -/
theorem C4_shared_devices_exact (ds : Dataset) (hwf : WellFormed ds) :
    (∀ d us, (d, us) ∈ getSharedDevices (buildG ds) →
      d ∈ ds.deviceIds ∧ 2 ≤ us.length ∧ us.Nodup ∧
        ∀ u ∈ us, u ∈ ds.userIds ∧
          ∃ l ∈ ds.user_devices, l.user_id = u ∧ l.device_id = d) ∧
    (∀ d, d ∈ ds.deviceIds → 2 ≤ (linkedUsers ds d).length →
      ∃ us, (d, us) ∈ getSharedDevices (buildG ds)) :=
  ⟨fun d us h => getSharedDevices_sound ds hwf d us h,
   fun d hd hl => getSharedDevices_complete ds hwf d hd hl⟩

/-- C4 witness: a well-formed dataset where two accounts share one
device; the device is reported. -/
theorem C4_shared_devices_exact_witness :
    (WellFormed dsSharedDevice ∧ "d1" ∈ dsSharedDevice.deviceIds ∧
      2 ≤ (linkedUsers dsSharedDevice "d1").length) ∧
    ∃ us, ("d1", us) ∈ getSharedDevices (buildG dsSharedDevice) :=
  ⟨⟨by with_unfolding_all decide, by decide, by with_unfolding_all decide⟩,
   (C4_shared_devices_exact dsSharedDevice (by with_unfolding_all decide)).2 "d1"
     (by decide) (by with_unfolding_all decide)⟩

/-- C5: with the target present in the transfer network,
`get_transaction_paths(a, b, k)` returns only simple directed paths
from `a` to `b` of at most `k` edges, and the empty list (not an
error) when no such path exists. -/
theorem C5_transaction_paths_sound (g : NXDiGraph) (a b : String) (k : Nat)
    (hb : b ∈ g.nodeIds) :
    (∀ p ∈ getTransactionPaths g a b k,
      p.head? = some a ∧ p.getLast? = some b ∧ p.Nodup ∧
      List.Chain' (fun x y => g.hasEdge x y = true) p ∧ p.length ≤ k + 1) ∧
    ((¬ ∃ p : List String, p.head? = some a ∧ p.getLast? = some b ∧ p.Nodup ∧
        List.Chain' (fun x y => g.hasEdge x y = true) p ∧ p.length ≤ k + 1) →
      getTransactionPaths g a b k = []) := by
  refine ⟨getTransactionPaths_sound g a b k hb, fun hnone => ?_⟩
  rw [List.eq_nil_iff_forall_not_mem]
  intro p hp
  exact hnone ⟨p, getTransactionPaths_sound g a b k hb p hp⟩

/-- C5 witness: two accounts with one completed transfer at bound 3. -/
theorem C5_transaction_paths_sound_witness :
    "b" ∈ (buildT dsSingleTransfer).nodeIds ∧
    (∀ p ∈ getTransactionPaths (buildT dsSingleTransfer) "a" "b" 3,
      p.head? = some "a" ∧ p.getLast? = some "b" ∧ p.Nodup ∧
      List.Chain' (fun x y => (buildT dsSingleTransfer).hasEdge x y = true) p ∧
      p.length ≤ 3 + 1) :=
  ⟨by with_unfolding_all decide,
   (C5_transaction_paths_sound (buildT dsSingleTransfer) "a" "b" 3
     (by with_unfolding_all decide)).1⟩

/-- C6 (amended): an absent account id makes `get_user_subgraph`
return the *empty graph* (no `NotFoundError` is raised anywhere in the
class); for a present account, depth 0 returns just that node. -/
theorem C6_subgraph_behaviour (g : NXGraph) (u : String) (depth : Nat) :
    (u ∉ g.nodeIds → getUserSubgraph g u depth = ⟨[], []⟩) ∧
    ((g.nodes.map Prod.fst).Nodup → u ∈ g.nodeIds →
      (getUserSubgraph g u 0).nodes.map Prod.fst = [u]) :=
  ⟨fun h => getUserSubgraph_absent g u depth h,
   fun hnd h => getUserSubgraph_depth_zero g u hnd h⟩

/-- C6 witness: an absent id yields the empty graph and the one
present account at depth 0 yields exactly its own node. -/
theorem C6_subgraph_behaviour_witness :
    ("ghost" ∉ (buildG dsLoneUser).nodeIds ∧
      getUserSubgraph (buildG dsLoneUser) "ghost" 2 = ⟨[], []⟩) ∧
    (((buildG dsLoneUser).nodes.map Prod.fst).Nodup ∧
      "u1" ∈ (buildG dsLoneUser).nodeIds ∧
      (getUserSubgraph (buildG dsLoneUser) "u1" 0).nodes.map Prod.fst = ["u1"]) :=
  ⟨⟨by with_unfolding_all decide,
    (C6_subgraph_behaviour (buildG dsLoneUser) "ghost" 2).1
      (by with_unfolding_all decide)⟩,
   ⟨by with_unfolding_all decide, by with_unfolding_all decide,
    (C6_subgraph_behaviour (buildG dsLoneUser) "u1" 0).2
      (by with_unfolding_all decide) (by with_unfolding_all decide)⟩⟩

/-- C6 counterexample: the claimed `NotFoundError` never happens — on
an absent account id the method returns the empty graph as a normal
value. -/
theorem C6_absent_counterexample :
    "missing" ∉ (buildG dsLoneUser).nodeIds ∧
    getUserSubgraph (buildG dsLoneUser) "missing" 2 = ⟨[], []⟩ := by
  exact ⟨by with_unfolding_all decide, by with_unfolding_all decide⟩

/-- C7 (amended): an account with no incident transfer edge still gets
a centrality row — with zero in/out degree and zero betweenness — but
its pagerank is the *positive* uniform baseline, not zero. -/
theorem C7_isolated_centrality_row (ds : Dataset) (u : UserRow)
    (hu : u ∈ ds.users)
    (hin : (buildT ds).inDeg u.user_id = 0)
    (hout : (buildT ds).outDeg u.user_id = 0) :
    ∃ r ∈ calculateCentralityScores (buildFromDataset ds),
      r.user_id = u.user_id ∧ r.in_degree = 0 ∧ r.out_degree = 0 ∧
      r.betweenness = 0 ∧ 0 < r.pagerank := by
  have hmem : u.user_id ∈ userNodesOf (buildT ds) := mem_userNodesOf_buildT ds u hu
  have hids : u.user_id ∈ (buildT ds).nodeIds := (List.mem_filter.mp hmem).1
  refine ⟨mkCentralityRow (buildT ds) u.user_id, ?_, rfl, hin, hout,
    nxBetweenness_isolated (buildT ds) u.user_id hin,
    nxPagerank_pos (buildT ds) (List.ne_nil_of_mem hids) u.user_id⟩
  exact (mem_calculateCentralityScores (buildFromDataset ds)
    (mkCentralityRow (buildT ds) u.user_id)).mpr ⟨u.user_id, hmem, rfl⟩

/-- C7 witness: the lone account has no transfers yet receives a row
with zero degrees, zero betweenness and positive pagerank. -/
theorem C7_isolated_centrality_row_witness :
    ((⟨"u1", false, 100, "basic"⟩ : UserRow) ∈ dsLoneUser.users ∧
      (buildT dsLoneUser).inDeg "u1" = 0 ∧ (buildT dsLoneUser).outDeg "u1" = 0) ∧
    ∃ r ∈ calculateCentralityScores (buildFromDataset dsLoneUser),
      r.user_id = "u1" ∧ r.in_degree = 0 ∧ r.out_degree = 0 ∧
      r.betweenness = 0 ∧ 0 < r.pagerank :=
  ⟨⟨by decide, by with_unfolding_all decide, by with_unfolding_all decide⟩,
   C7_isolated_centrality_row dsLoneUser ⟨"u1", false, 100, "basic"⟩ (by decide)
     (by with_unfolding_all decide) (by with_unfolding_all decide)⟩

/-- C7 counterexample: the transfer-less lone account's pagerank is
exactly 1, not the zero value the claim asserts for all centrality
scores. -/
theorem C7_pagerank_counterexample :
    (calculateCentralityScores (buildFromDataset dsLoneUser)).map (·.pagerank) = [1] ∧
    (1 : ℚ) ≠ 0 := by
  exact ⟨by with_unfolding_all decide, by norm_num⟩

/-- C8: with at least one account and a threshold strictly above every
composite risk score, the suspicious-pattern digest reports
`precision = 0`, `recall = 0` (and no `f1_score` key) as a defined
value, not an error. -/
theorem C8_suspicious_patterns_zero (ds : Dataset) (topN : Nat) (t : ℚ)
    (hne : ds.users ≠ []) (hmax : ∀ r ∈ riskTable ds, r.risk_score < t) :
    (querySuspiciousPatterns ds topN t).detection_accuracy = some ⟨0, 0, none⟩ :=
  calculateDetectionAccuracy_zero (riskTable ds) t (riskTable_ne_nil ds hne) hmax

/-- C8 witness: one modest account and threshold 1, above its score. -/
theorem C8_suspicious_patterns_zero_witness :
    (dsSmallAmount.users ≠ [] ∧ ∀ r ∈ riskTable dsSmallAmount, r.risk_score < 1) ∧
    (querySuspiciousPatterns dsSmallAmount 10 1).detection_accuracy = some ⟨0, 0, none⟩ :=
  ⟨⟨by decide, by with_unfolding_all decide⟩,
   C8_suspicious_patterns_zero dsSmallAmount 10 1 (by decide)
     (by with_unfolding_all decide)⟩

/-- With a transfer table supplied, a risk row's `age_risk` column is
definitionally the clipped-age formula over its own
`account_age_days`. -/
theorem mkRiskRow_age_risk (g : NXGraph) (maxPr maxBw : ℚ)
    (shared : List ResourceRec) (tdf : List TxnRow) (c : CentralityRow) :
    (mkRiskRow g maxPr maxBw shared (some tdf) c).age_risk
      = (90 - min (((mkRiskRow g maxPr maxBw shared (some tdf) c).account_age_days : ℚ))
          90) / 90 := rfl

theorem ageRiskFormulaZero (A : Int) (h : 90 ≤ A) :
    (90 - min ((A : ℚ)) 90) / 90 = 0 := by
  rw [min_eq_right (by exact_mod_cast h : (90 : ℚ) ≤ (A : ℚ))]
  norm_num

theorem ageRiskFormulaMono (A B : Int) (hlt : B < A) (hle : A ≤ 90) :
    (90 - min ((A : ℚ)) 90) / 90 < (90 - min ((B : ℚ)) 90) / 90 := by
  have hA : ((A : ℚ)) ≤ 90 := by exact_mod_cast hle
  have hB : ((B : ℚ)) < ((A : ℚ)) := by exact_mod_cast hlt
  rw [min_eq_left hA, min_eq_left (le_of_lt (lt_of_lt_of_le hB hA))]
  linarith

/-- C9 (amended): when a transfer table is passed to
`compute_risk_scores`, every row's `age_risk` equals
`(90 − min(account_age_days, 90)) / 90`, accounts aged ≥ 90 days score
exactly 0, and among rows of the same batch a strictly younger account
(both within the 90-day window) scores strictly higher; with
`transactions_df=None` the column is instead reset to 0. -/
theorem C9_age_risk_formula (g : NXGraph) (cdf : List CentralityRow)
    (shared : List ResourceRec) (tdf : List TxnRow) (r : RiskRow)
    (hr : r ∈ computeRiskScores g cdf shared (some tdf)) :
    r.age_risk = (90 - min ((r.account_age_days : ℚ)) 90) / 90 ∧
    (90 ≤ r.account_age_days → r.age_risk = 0) ∧
    (∀ s ∈ computeRiskScores g cdf shared (some tdf),
      s.account_age_days < r.account_age_days → r.account_age_days ≤ 90 →
      r.age_risk < s.age_risk) := by
  rcases (mem_computeRiskScores g cdf shared (some tdf) r).mp hr with ⟨c, hc, rfl⟩
  refine ⟨mkRiskRow_age_risk g _ _ shared tdf c, fun h90 => ?_, fun s hs hlt hle => ?_⟩
  · exact (mkRiskRow_age_risk g _ _ shared tdf c).trans (ageRiskFormulaZero _ h90)
  · rcases (mem_computeRiskScores g cdf shared (some tdf) s).mp hs with ⟨c', hc', rfl⟩
    rw [mkRiskRow_age_risk g _ _ shared tdf c, mkRiskRow_age_risk g _ _ shared tdf c']
    exact ageRiskFormulaMono _ _ hlt hle

/-- Centrality row used in the `C9` evaluations. -/
def cRow9 : CentralityRow := ⟨"u1", 0, 0, 0, 0, false⟩

/-- The single risk row scored from `cRow9` over an empty graph with
an (empty) transfer table supplied. -/
def riskRow9 : RiskRow := mkRiskRow ⟨[], []⟩ 0 0 [] (some []) cRow9

/-- C9 witness: the formula, the ≥ 90 case and batch monotonicity
evaluated on a concrete one-row batch. -/
theorem C9_age_risk_formula_witness :
    riskRow9 ∈ computeRiskScores ⟨[], []⟩ [cRow9] [] (some []) ∧
    (riskRow9.age_risk = (90 - min ((riskRow9.account_age_days : ℚ)) 90) / 90 ∧
     (90 ≤ riskRow9.account_age_days → riskRow9.age_risk = 0) ∧
     (∀ s ∈ computeRiskScores ⟨[], []⟩ [cRow9] [] (some []),
       s.account_age_days < riskRow9.account_age_days →
       riskRow9.account_age_days ≤ 90 → riskRow9.age_risk < s.age_risk)) :=
  ⟨by with_unfolding_all decide,
   C9_age_risk_formula ⟨[], []⟩ [cRow9] [] [] riskRow9 (by with_unfolding_all decide)⟩

/-- Relational graph holding one 1-day-old account, for the `C9`
counterexample. -/
def g9 : NXGraph := ⟨[("u1", ⟨some "user", some false, some 1, none, none⟩)], []⟩

/-- C9 counterexample: with `transactions_df=None` a 1-day-old account
gets `age_risk = 0`, while the claimed formula evaluates to
`89/90 ≠ 0`. -/
theorem C9_none_counterexample :
    (∀ r ∈ computeRiskScores g9 [cRow9] [] none,
      r.account_age_days = 1 ∧ r.age_risk = 0) ∧
    (90 - min (((1 : Int) : ℚ)) 90) / 90 ≠ 0 := by
  refine ⟨by with_unfolding_all decide, ?_⟩
  rw [min_eq_left (by norm_num : (((1 : Int) : ℚ)) ≤ 90)]
  norm_num

/-- C10: every shared-resource record has at least two sharers, a
fraud-labelled count at most the sharer count, a risk ratio equal to
their quotient (hence in [0, 1]), and the list is sorted by
non-increasing risk ratio. -/
theorem C10_shared_resource_records (g : NXGraph) :
    (∀ rec ∈ detectSharedResources g,
      2 ≤ rec.shared_by_count ∧ rec.fraudster_count ≤ rec.shared_by_count ∧
      rec.risk_score = (rec.fraudster_count : ℚ) / (rec.shared_by_count : ℚ) ∧
      0 ≤ rec.risk_score ∧ rec.risk_score ≤ 1) ∧
    (detectSharedResources g).Pairwise (fun x y => y.risk_score ≤ x.risk_score) := by
  refine ⟨fun rec h => ?_, detectSharedResources_sorted g⟩
  obtain ⟨h1, _, h3, h4, h5, h6⟩ := detectSharedResources_mem_props g rec h
  exact ⟨h1, h3, h4, h5, h6⟩

/-- The record reported for the one shared device of
`dsSharedDevice`. -/
def rec10 : ResourceRec := ⟨"d1", 2, ["u1", "u2"], 0, 0⟩

/-- C10 witness: the concrete record of the shared device `d1`
satisfies every reported property. -/
theorem C10_shared_resource_records_witness :
    rec10 ∈ detectSharedResources (buildG dsSharedDevice) ∧
    (2 ≤ rec10.shared_by_count ∧ rec10.fraudster_count ≤ rec10.shared_by_count ∧
     rec10.risk_score = (rec10.fraudster_count : ℚ) / (rec10.shared_by_count : ℚ) ∧
     0 ≤ rec10.risk_score ∧ rec10.risk_score ≤ 1) :=
  ⟨by with_unfolding_all decide,
   (C10_shared_resource_records (buildG dsSharedDevice)).1 rec10
     (by with_unfolding_all decide)⟩
